import Mathlib

/-!
Verification development for the Crawler repository.

The crawl engine of src/Crawler.py is embedded as a shallow Lean model:
the fetch collaborator (requests.get + BeautifulSoup + urljoin) is an
oracle `Graph` mapping a URL to `none` (network or HTTP failure) or
`some hrefs` (the absolute URLs of the anchor elements of the fetched
page, in document order).  The mutable `self.links` set and the sequence
of fetch attempts are threaded explicitly as `CrawlState`.
-/

set_option maxHeartbeats 1600000

/-- Python str.startswith: the candidate string starts with the given text. -/
def startswith (s pre : String) : Bool :=
  pre.data.isPrefixOf s.data

/-- Python url.rstrip of slashes: remove every trailing slash character. -/
def rstripSlash (s : String) : String :=
  ⟨(s.data.reverse.dropWhile (fun c => c == '/')).reverse⟩

/-- Configuration part of class WebCrawler (src/Crawler.py lines 8-21):
the stored seed url (trailing slashes stripped) and the two depth limits.
The mutable sets live in CrawlState instead. -/
structure WebCrawler where
  url : String
  max_depth : Nat
  outside_depth : Nat
deriving DecidableEq

/-- WebCrawler.__init__ (src/Crawler.py lines 8-21): the seed is stored
with trailing slashes removed; subdomains, links, jsfiles start empty. -/
def mkWebCrawler (url : String) (max_depth : Nat) (outside_depth : Nat) : WebCrawler :=
  ⟨rstripSlash url, max_depth, outside_depth⟩

/-- Fetch oracle: the fixed fetch results for one crawl run.  A URL maps to
none when requests.get raises or the status is not 2xx, and to the list of
absolute hrefs of its page otherwise. -/
abbrev Graph := String → Option (List String)

/-- Builds a fetch oracle from a finite association list of pages; URLs
absent from the list fail to fetch. -/
def graphOf (l : List (String × List String)) : Graph :=
  fun u => (l.find? (fun p => p.1 == u)).map Prod.snd

/-- Mutable crawl state: self.links (as an insertion-ordered duplicate-free
list) and the trace of URLs passed to requests.get, in order.  The
subdomains and jsfiles sets of the source are omitted: they are written
but never read by the crawl logic and touch neither links nor fetching. -/
structure CrawlState where
  links : List String
  fetched : List String
deriving DecidableEq

/-- WebCrawler.is_within_prefix (src/Crawler.py lines 27-39): a discovered
link is inside iff it starts with the stored seed url. -/
def isWithinPrefix (c : WebCrawler) (link : String) : Bool :=
  startswith link c.url

/-- When the depth guard of WebCrawler.crawl does not fire, the depth is
bounded by the larger of the two configured limits. -/
theorem depth_le_of_guard {b : Bool} {m o depth : Nat}
    (h : ¬ (if b then m < depth else o < depth)) : depth ≤ max m o := by
  cases b <;> simp at h <;> omega

/-- The depth guard at the top of WebCrawler.crawl (src/Crawler.py lines
47-54): the limit is max_depth inside the prefix and outside_depth
outside, and the crawl returns at once when the depth exceeds it. -/
def crawlGuard (c : WebCrawler) (current_url : String) (depth : Nat) : Prop :=
  if isWithinPrefix c current_url then c.max_depth < depth else c.outside_depth < depth

instance (c : WebCrawler) (u : String) (d : Nat) : Decidable (crawlGuard c u d) := by
  unfold crawlGuard; infer_instance

/-- A depth the guard lets through is bounded by the larger limit. -/
theorem depth_le_of_not_guard {c : WebCrawler} {u : String} {d : Nat}
    (h : ¬ crawlGuard c u d) : d ≤ max c.max_depth c.outside_depth :=
  depth_le_of_guard h

/-- The for-loop over the anchor elements in WebCrawler.crawl
(src/Crawler.py lines 67-81), abstracted over the recursive call: each
href not yet in self.links is added and then crawled one level deeper. -/
def crawlLinks (recurse : String → CrawlState → CrawlState) :
    List String → CrawlState → CrawlState
  | [], s => s
  | full_link :: rest, s =>
      let s' := if full_link ∈ s.links then s
                else recurse full_link ⟨s.links ++ [full_link], s.fetched⟩
      crawlLinks recurse rest s'

/-- WebCrawler.crawl (src/Crawler.py lines 41-87), with an explicit
structural counter `remaining` that only instruments termination: the
hypothesis ties it to the depth, and the counter can run out only in a
state the depth guard has already excluded, so no behaviour is attached
to it.  The body mirrors the source: pick the depth limit according to
is_within_prefix and return if exceeded; attempt the fetch (recorded in
the trace) and return on failure; otherwise iterate over the page's
links, inserting and recursing on each new one. -/
def crawlAux (g : Graph) (c : WebCrawler) :
    (remaining : Nat) → (current_url : String) → (depth : Nat) →
    (hr : max c.max_depth c.outside_depth + 1 ≤ remaining + depth) →
    CrawlState → CrawlState
  | remaining, current_url, depth, hr, s =>
    if h : crawlGuard c current_url depth then s
    else
      match g current_url with
      | none => ⟨s.links, s.fetched ++ [current_url]⟩
      | some hrefs =>
        match remaining, hr with
        | 0, hr => absurd (depth_le_of_not_guard h) (by omega)
        | remaining + 1, hr =>
            crawlLinks (fun u s => crawlAux g c remaining u (depth + 1) (by omega) s)
              hrefs ⟨s.links, s.fetched ++ [current_url]⟩

/-- WebCrawler.crawl with the termination counter instantiated. -/
def crawl (g : Graph) (c : WebCrawler) (current_url : String) (depth : Nat)
    (s : CrawlState) : CrawlState :=
  crawlAux g c (max c.max_depth c.outside_depth + 1 - depth) current_url depth (by omega) s

/-- WebCrawler.start_crawling (src/Crawler.py lines 23-25): crawl the
stored seed at depth 1, starting from empty links and an empty trace. -/
def start_crawling (g : Graph) (c : WebCrawler) : CrawlState :=
  crawl g c c.url 1 ⟨[], []⟩

/-!
Breadth-first comparison engine for the order-independence claim.

The spec describes the engine as a frontier of (url, depth) entries with
the visited set consulted and extended at discovery time; the code
processes the frontier depth-first through the call stack.  The function
below follows the spec's frontier wording with the one change the claim
quantifies over: entries are taken in FIFO order.  Fuel bounds the number
of frontier entries processed; every concrete use supplies enough fuel,
and the completeness lemma below proves the supplied fuel suffices.
-/

/-- Modelled from the spec: the discovery step of the engine: a candidate
absent from the visited list is recorded and enqueued at one level
deeper, a known one is skipped. -/
def bfsExpand (depth : Nat) (acc : List String × List (String × Nat)) (full_link : String) :
    List String × List (String × Nat) :=
  if full_link ∈ acc.1 then acc
  else (acc.1 ++ [full_link], acc.2 ++ [(full_link, depth + 1)])

/-- Modelled from the spec: STEP 2-3 of the Crawl Engine algorithm with a
first-in-first-out frontier. Identical per-entry semantics to the code:
the depth limit picked by is_within_prefix (the crawlGuard), a failed
fetch expands nothing, and each href absent from the visited list is
recorded and enqueued one level deeper. -/
def bfs (g : Graph) (c : WebCrawler) :
    Nat → List (String × Nat) → List String → List String
  | 0, _, links => links
  | _ + 1, [], links => links
  | fuel + 1, (u, depth) :: rest, links =>
      if crawlGuard c u depth then
        bfs g c fuel rest links
      else
        match g u with
        | none => bfs g c fuel rest links
        | some hrefs =>
            let p := hrefs.foldl (bfsExpand depth) (links, [])
            bfs g c fuel (rest ++ p.2) p.1

/-- Modelled from the spec: the breadth-first run of the engine from the
seed, frontier initialised to the single entry (seed, depth 1). -/
def bfsRun (g : Graph) (c : WebCrawler) (fuel : Nat) : List String :=
  bfs g c fuel [(c.url, 1)] []

/-- A URL is discoverable when it occurs among the hrefs of the seed's
page or of the page of another discoverable URL whose fetch succeeds.
This is the closure the engine computes when no depth limit prunes. -/
inductive Discovered (g : Graph) (root : String) : String → Prop where
  | seed_step : ∀ hs u, g root = some hs → u ∈ hs → Discovered g root u
  | step : ∀ v hs u, Discovered g root v → g v = some hs → u ∈ hs →
      Discovered g root u

/-! Embedding of src/Downloader.py (sanitize_filename) and the parts of
src/main.py and src/Combiner.py the claims need.  Python's urllib
urlparse is an external collaborator: a URL is represented by the parse
result the code reads (netloc, path, query), paired with the raw string
where the code also inspects the raw string. -/

/-- Python str.endswith for a single suffix. -/
def endswith (s suffix : String) : Bool :=
  suffix.data.isSuffixOf s.data

/-- Python str.lower, on the ASCII range the claims exercise. -/
def lowerStr (s : String) : String :=
  ⟨s.data.map Char.toLower⟩

/-- Result of urlparse as read by the code: authority, path and query. -/
structure ParsedUrl where
  netloc : String
  path : String
  query : String
deriving DecidableEq

/-- Characters the re.sub of sanitize_filename keeps (the class
a-z A-Z 0-9 underscore hyphen dot); every other character becomes an
underscore. -/
def keepChar (ch : Char) : Bool :=
  ch.isAlpha || ch.isDigit || ch == '_' || ch == '-' || ch == '.'

/-- The re.sub call of sanitize_filename: replace every character outside
the kept class with an underscore. -/
def sanitizeComponent (s : String) : String :=
  ⟨s.data.map (fun ch => if keepChar ch then ch else '_')⟩

/-- sanitize_filename (src/Downloader.py lines 8-32) over the parse
result of the URL. -/
def sanitize_filename (u : ParsedUrl) : String :=
  let safe_path := sanitizeComponent u.path
  let safe_path := if safe_path = "" ∨ safe_path = "_" then "index" else safe_path
  let filename := u.netloc ++ safe_path
  let filename := if u.query ≠ "" then filename ++ "_" ++ sanitizeComponent u.query
                  else filename
  if endswith filename ".html" then filename else filename ++ ".html"

/-- Python str.strip of slashes: remove leading and trailing slashes. -/
def stripSlash (s : String) : String :=
  ⟨((s.data.dropWhile (fun c => c == '/')).reverse.dropWhile (fun c => c == '/')).reverse⟩

/-- Python str.split on a separator character: cut the characters at
every separator occurrence, keeping empty pieces between adjacent
separators. -/
def splitCharAux (sep : Char) : List Char → List Char → List String
  | [], acc => [⟨acc.reverse⟩]
  | c :: rest, acc =>
      if c == sep then (⟨acc.reverse⟩ : String) :: splitCharAux sep rest []
      else splitCharAux sep rest (c :: acc)

/-- get_path_segments (src/Combiner.py lines 8-18) over the parse result:
strip surrounding slashes from the path and split on the slash, the empty
path giving the empty list. -/
def get_path_segments (u : ParsedUrl) : List String :=
  let path_str := stripSlash u.path
  if path_str = "" then [] else splitCharAux '/' path_str.data []

/-- Appending a value under a key in an insertion-ordered dict, as the
groups dict of group_urls_by_prefix does. -/
def addPair {α : Type} (groups : List (String × List α)) (key : String) (v : α) :
    List (String × List α) :=
  match groups with
  | [] => [(key, [v])]
  | (k, vs) :: rest =>
      if k = key then (k, vs ++ [v]) :: rest else (k, vs) :: addPair rest key v

/-- The grouping key of one entry in group_urls_by_prefix: the path
segments with the last `parents` dropped, joined with slashes (cutoff is
max(0, len - parents), which is truncated Nat subtraction). -/
def groupKey (u : ParsedUrl) (parents : Nat) : String :=
  let segments := get_path_segments u
  let cutoff := segments.length - parents
  String.intercalate "/" (segments.take cutoff)

/-- group_urls_by_prefix (src/Combiner.py lines 21-56): fold the url and
filename pairs into an insertion-ordered dict keyed by the group key. -/
def groupUrlsByPrefix (urls : List (ParsedUrl × String)) (parents : Nat) :
    List (String × List (ParsedUrl × String)) :=
  urls.foldl (fun groups p => addPair groups (groupKey p.1 parents) p) []

/-! Embedding of download_all (src/main.py lines 48-111).  The output
directory is a flat key-value store from filename to content; the fetch
collaborator maps a URL to its body or to a failure. -/

/-- A link as download_all sees it: the raw string (tested by startswith
and the image-extension check) and its parse result (fed to
sanitize_filename). -/
structure DlUrl where
  raw : String
  parsed : ParsedUrl
deriving DecidableEq

/-- The output directory as a flat store of filename to content. -/
abbrev FS := List (String × String)

/-- Content of a file in the store, when present. -/
def fsGet (fs : FS) (name : String) : Option String :=
  (fs.find? (fun p => p.1 == name)).map Prod.snd

/-- os.path.exists over the store. -/
def fsExists (fs : FS) (name : String) : Bool :=
  (fs.find? (fun p => p.1 == name)).isSome

/-- Opening a file for writing: truncate or create, then write content. -/
def fsWrite (fs : FS) (name content : String) : FS :=
  match fs with
  | [] => [(name, content)]
  | (k, v) :: rest =>
      if k = name then (k, content) :: rest else (k, v) :: fsWrite rest name content

/-- Opening a file for appending: append to its content, creating it
empty first when absent. -/
def fsAppend (fs : FS) (name content : String) : FS :=
  fsWrite fs name (((fsGet fs name).getD "") ++ content)

/-- Image extensions download_all skips (src/main.py line 67). -/
def image_extensions : List String :=
  [".jpg", ".jpeg", ".png", ".gif", ".bmp", ".svg", ".ico"]

/-- Name of the url-to-filename log inside the output directory. -/
def mapFileName : String := "download_map.txt"

/-- The per-link body of the download loop (src/main.py lines 74-107):
skip non-http links, image links and links whose derived file already
exists; otherwise fetch, and on success write the page file and append a
tab-separated line to the map file.  The progress counter and spinner
are display-only and omitted. -/
def downloadStep (dg : String → Option String) (fs : FS) (link : DlUrl) : FS :=
  if ¬ startswith link.raw "http" then fs
  else if image_extensions.any (fun ext => endswith (lowerStr link.raw) ext) then fs
  else
    let filename := sanitize_filename link.parsed
    if fsExists fs filename then fs
    else
      match dg link.raw with
      | some text => fsAppend (fsWrite fs filename text) mapFileName
          (link.raw ++ "\t" ++ filename ++ "\n")
      | none => fs

/-- download_all (src/main.py lines 48-111): return unchanged on an empty
link collection; otherwise truncate the map file and run the loop. -/
def download_all (dg : String → Option String) (links : List DlUrl) (fs : FS) : FS :=
  if links.length = 0 then fs
  else links.foldl (downloadStep dg) (fsWrite fs mapFileName "")

/-! Model of the Python keyword-call rule and the attribute set, for the
claim about main (src/main.py lines 130-147). -/

/-- Parameter names of WebCrawler.__init__ (src/Crawler.py line 8),
excluding self; the function declares no **kwargs catch-all. -/
def webCrawlerInitParams : List String := ["url", "max_depth", "outside_depth"]

/-- Keyword argument names of the WebCrawler construction in main
(src/main.py lines 131-136). -/
def mainCrawlerKwargs : List String := ["url", "max_depth", "outside_depth", "verbose"]

/-- Attributes WebCrawler.__init__ assigns on self (src/Crawler.py
lines 14-21); no other attribute is ever assigned on the instance. -/
def webCrawlerAttrs : List String :=
  ["url", "max_depth", "outside_depth", "subdomains", "links", "jsfiles"]

/-- Python rule for calling a function that declares no **kwargs: the
call raises TypeError exactly when some keyword is not a parameter name. -/
def callRaisesTypeError (params kwargs : List String) : Bool :=
  kwargs.any (fun k => ¬ params.contains k)

/-- Outcome of the crawl phase of main. -/
inductive MainOutcome where
  | typeError : MainOutcome
  | completed : List String → MainOutcome
deriving DecidableEq

/-- The crawl phase of main (src/main.py lines 130-143): the WebCrawler
construction with main's keyword arguments, then start_crawling only when
the construction does not raise. -/
def mainCrawlPhase (g : Graph) (url : String) (depth outside_depth : Nat) : MainOutcome :=
  if callRaisesTypeError webCrawlerInitParams mainCrawlerKwargs then MainOutcome.typeError
  else MainOutcome.completed
    (start_crawling g (mkWebCrawler url depth outside_depth)).links

/-! General invariants of the crawl loop.  Lemmas about crawlLinks are
parameterised by the behaviour of the recursive call, so one list
induction serves every instantiation. -/

/-- The links list only grows along the loop when the recursive call only
grows it. -/
theorem crawlLinks_links_mono {recurse : String → CrawlState → CrawlState}
    (Hmono : ∀ u s, s.links ⊆ (recurse u s).links) :
    ∀ (l : List String) (s : CrawlState), s.links ⊆ (crawlLinks recurse l s).links := by
  intro l
  induction l with
  | nil => intro s; simp [crawlLinks]
  | cons fl rest ih =>
      intro s
      simp only [crawlLinks]
      by_cases hfl : fl ∈ s.links
      · simpa [hfl] using ih s
      · refine fun v hv => ih _ ?_
        simp only [hfl, if_neg, if_false]
        exact Hmono fl ⟨s.links ++ [fl], s.fetched⟩ (by simp [hv])

/-- The fetch trace only grows along the loop when the recursive call only
grows it. -/
theorem crawlLinks_fetched_mono {recurse : String → CrawlState → CrawlState}
    (Hmono : ∀ u s, s.fetched <+: (recurse u s).fetched) :
    ∀ (l : List String) (s : CrawlState), s.fetched <+: (crawlLinks recurse l s).fetched := by
  intro l
  induction l with
  | nil => intro s; simp [crawlLinks]
  | cons fl rest ih =>
      intro s
      simp only [crawlLinks]
      by_cases hfl : fl ∈ s.links
      · simpa [hfl] using ih s
      · refine List.IsPrefix.trans ?_ (ih _)
        simp only [hfl, if_neg, if_false]
        exact Hmono fl ⟨s.links ++ [fl], s.fetched⟩

/-- Every element of the links list after the loop was already there, was
one of the iterated hrefs, or was added by a recursive call out of the
property the call guarantees. -/
theorem crawlLinks_links_from {recurse : String → CrawlState → CrawlState}
    {P : String → Prop}
    (Hrec : ∀ u s v, v ∈ (recurse u s).links → v ∈ s.links ∨ P v) :
    ∀ (l : List String) (s : CrawlState), (∀ x ∈ l, P x) →
      ∀ v ∈ (crawlLinks recurse l s).links, v ∈ s.links ∨ P v := by
  intro l
  induction l with
  | nil => intro s _ v hv; exact Or.inl (by simpa [crawlLinks] using hv)
  | cons fl rest ih =>
      intro s hl v hv
      simp only [crawlLinks] at hv
      by_cases hfl : fl ∈ s.links
      · simp only [hfl, if_pos, if_true] at hv
        exact ih s (fun x hx => hl x (by simp [hx])) v hv
      · simp only [hfl, if_neg, if_false] at hv
        rcases ih _ (fun x hx => hl x (by simp [hx])) v hv with h | h
        · rcases Hrec fl ⟨s.links ++ [fl], s.fetched⟩ v h with h' | h'
          · rcases List.mem_append.mp h' with h'' | h''
            · exact Or.inl h''
            · have hv' : v = fl := by simpa using h''
              exact Or.inr (hv' ▸ hl fl (by simp))
          · exact Or.inr h'
        · exact Or.inr h

/-- The links list stays duplicate-free along the loop when the recursive
call preserves that. -/
theorem crawlLinks_nodup {recurse : String → CrawlState → CrawlState}
    (Hnd : ∀ u s, s.links.Nodup → (recurse u s).links.Nodup) :
    ∀ (l : List String) (s : CrawlState), s.links.Nodup →
      (crawlLinks recurse l s).links.Nodup := by
  intro l
  induction l with
  | nil => intro s hs; simpa [crawlLinks] using hs
  | cons fl rest ih =>
      intro s hs
      simp only [crawlLinks]
      by_cases hfl : fl ∈ s.links
      · simpa [hfl] using ih s hs
      · simp only [hfl, if_neg, if_false]
        refine ih _ (Hnd fl ⟨s.links ++ [fl], s.fetched⟩ ?_)
        simpa [List.nodup_append] using ⟨hs, hfl⟩

/-- One-step unfolding of crawlAux when the depth guard fires. -/
theorem crawlAux_guard_pos (g : Graph) (c : WebCrawler) (rem : Nat) (u : String) (d : Nat)
    (hr : max c.max_depth c.outside_depth + 1 ≤ rem + d) (s : CrawlState)
    (hguard : crawlGuard c u d) : crawlAux g c rem u d hr s = s := by
  cases rem <;> (rw [crawlAux]; exact dif_pos hguard)

/-- One-step unfolding of crawlAux when the guard passes and the fetch
fails: only the trace records the attempt. -/
theorem crawlAux_fetch_fail (g : Graph) (c : WebCrawler) (rem : Nat) (u : String) (d : Nat)
    (hr : max c.max_depth c.outside_depth + 1 ≤ rem + d) (s : CrawlState)
    (hguard : ¬ crawlGuard c u d) (hg : g u = none) :
    crawlAux g c rem u d hr s = ⟨s.links, s.fetched ++ [u]⟩ := by
  cases rem <;> (rw [crawlAux, dif_neg hguard, hg])

/-- One-step unfolding of crawlAux when the guard passes and the fetch
succeeds: the attempt is recorded and the loop runs over the page's
hrefs, recursing one level deeper. -/
theorem crawlAux_fetch_some (g : Graph) (c : WebCrawler) (k : Nat) (u : String) (d : Nat)
    (hr : max c.max_depth c.outside_depth + 1 ≤ (k + 1) + d) (s : CrawlState)
    (hguard : ¬ crawlGuard c u d) (hrefs : List String) (hg : g u = some hrefs) :
    crawlAux g c (k + 1) u d hr s =
      crawlLinks (fun u' s' => crawlAux g c k u' (d + 1) (by omega) s') hrefs
        ⟨s.links, s.fetched ++ [u]⟩ := by
  rw [crawlAux, dif_neg hguard, hg]

/-- At the bottom of the termination counter the guard always fires. -/
theorem crawlGuard_of_zero (c : WebCrawler) (u : String) (d : Nat)
    (hr : max c.max_depth c.outside_depth + 1 ≤ 0 + d) : crawlGuard c u d := by
  by_contra hguard
  exact absurd (depth_le_of_guard hguard) (by omega)

/-- The crawl only ever adds to the links list. -/
theorem crawlAux_links_mono (g : Graph) (c : WebCrawler) :
    ∀ (rem : Nat) (u : String) (d : Nat)
      (hr : max c.max_depth c.outside_depth + 1 ≤ rem + d) (s : CrawlState),
      s.links ⊆ (crawlAux g c rem u d hr s).links := by
  intro rem
  induction rem with
  | zero =>
      intro u d hr s
      rw [crawlAux_guard_pos g c 0 u d hr s (crawlGuard_of_zero c u d hr)]
      exact fun v hv => hv
  | succ k ih =>
      intro u d hr s
      by_cases hguard : crawlGuard c u d
      · rw [crawlAux_guard_pos g c _ u d hr s hguard]
        exact fun v hv => hv
      · match hg : g u with
        | none => rw [crawlAux_fetch_fail g c _ u d hr s hguard hg]; exact fun v hv => hv
        | some hrefs =>
            rw [crawlAux_fetch_some g c k u d hr s hguard hrefs hg]
            exact crawlLinks_links_mono (fun u' s' => ih u' (d + 1) (by omega) s') hrefs
              ⟨s.links, s.fetched ++ [u]⟩

/-- The fetch trace grows by appending only. -/
theorem crawlAux_fetched_mono (g : Graph) (c : WebCrawler) :
    ∀ (rem : Nat) (u : String) (d : Nat)
      (hr : max c.max_depth c.outside_depth + 1 ≤ rem + d) (s : CrawlState),
      s.fetched <+: (crawlAux g c rem u d hr s).fetched := by
  intro rem
  induction rem with
  | zero =>
      intro u d hr s
      rw [crawlAux_guard_pos g c 0 u d hr s (crawlGuard_of_zero c u d hr)]
  | succ k ih =>
      intro u d hr s
      by_cases hguard : crawlGuard c u d
      · rw [crawlAux_guard_pos g c _ u d hr s hguard]
      · match hg : g u with
        | none =>
            rw [crawlAux_fetch_fail g c _ u d hr s hguard hg]
            exact List.prefix_append _ [u]
        | some hrefs =>
            rw [crawlAux_fetch_some g c k u d hr s hguard hrefs hg]
            exact List.IsPrefix.trans (List.prefix_append _ [u])
              (crawlLinks_fetched_mono (fun u' s' => ih u' (d + 1) (by omega) s') hrefs
                ⟨s.links, s.fetched ++ [u]⟩)

/-- Every link the crawl adds is an href of some successfully fetched
page. -/
theorem crawlAux_links_from (g : Graph) (c : WebCrawler) :
    ∀ (rem : Nat) (u : String) (d : Nat)
      (hr : max c.max_depth c.outside_depth + 1 ≤ rem + d) (s : CrawlState),
      ∀ v ∈ (crawlAux g c rem u d hr s).links,
        v ∈ s.links ∨ ∃ w hs, g w = some hs ∧ v ∈ hs := by
  intro rem
  induction rem with
  | zero =>
      intro u d hr s v hv
      rw [crawlAux_guard_pos g c 0 u d hr s (crawlGuard_of_zero c u d hr)] at hv
      exact Or.inl hv
  | succ k ih =>
      intro u d hr s v hv
      by_cases hguard : crawlGuard c u d
      · rw [crawlAux_guard_pos g c _ u d hr s hguard] at hv
        exact Or.inl hv
      · match hg : g u with
        | none =>
            rw [crawlAux_fetch_fail g c _ u d hr s hguard hg] at hv
            exact Or.inl hv
        | some hrefs =>
            rw [crawlAux_fetch_some g c k u d hr s hguard hrefs hg] at hv
            exact crawlLinks_links_from (fun u' s' => ih u' (d + 1) (by omega) s')
              hrefs ⟨s.links, s.fetched ++ [u]⟩
              (fun x hx => ⟨u, hrefs, hg, hx⟩) v hv

/-- Counting bound along the loop: a new fetch attempt of a URL is paid
for by its fresh insertion into the links list, so each URL is attempted
at most once per insertion. -/
theorem crawlLinks_count {recurse : String → CrawlState → CrawlState}
    (Hmono : ∀ u s, s.links ⊆ (recurse u s).links)
    (Hcnt : ∀ u s v, (recurse u s).fetched.count v ≤
      s.fetched.count v + (if v = u then 1 else 0) +
      (if v ∈ (recurse u s).links ∧ v ∉ s.links then 1 else 0)) :
    ∀ (l : List String) (s : CrawlState) (v : String),
      (crawlLinks recurse l s).fetched.count v ≤
        s.fetched.count v +
        (if v ∈ (crawlLinks recurse l s).links ∧ v ∉ s.links then 1 else 0) := by
  intro l
  induction l with
  | nil => intro s v; simp [crawlLinks]
  | cons fl rest ih =>
      intro s v
      simp only [crawlLinks]
      by_cases hfl : fl ∈ s.links
      · simpa [hfl] using ih s v
      · simp only [hfl, if_neg, if_false]
        have hm1 := Hmono fl ⟨s.links ++ [fl], s.fetched⟩
        have hm2 := crawlLinks_links_mono Hmono rest (recurse fl ⟨s.links ++ [fl], s.fetched⟩)
        have h1 := Hcnt fl ⟨s.links ++ [fl], s.fetched⟩ v
        have h2 := ih (recurse fl ⟨s.links ++ [fl], s.fetched⟩) v
        dsimp only at h1 h2 ⊢
        by_cases hv : v = fl
        · subst hv
          have hvS1 : v ∈ s.links ++ [v] := by simp
          have hvS' := hm1 hvS1
          have hvR := hm2 hvS'
          rw [if_pos rfl] at h1
          rw [if_neg (fun hx => hx.2 hvS1)] at h1
          rw [if_neg (fun hx => hx.2 hvS')] at h2
          rw [if_pos ⟨hvR, hfl⟩]
          omega
        · rw [if_neg hv] at h1
          by_cases hvS' : v ∈ (recurse fl ⟨s.links ++ [fl], s.fetched⟩).links
          · have hvR := hm2 hvS'
            rw [if_neg (fun hx => hx.2 hvS')] at h2
            by_cases hvs : v ∈ s.links
            · rw [if_neg (fun hx => hx.2 (List.mem_append_left _ hvs))] at h1
              rw [if_neg (fun hx => hx.2 hvs)]
              omega
            · have hnS1 : v ∉ s.links ++ [fl] := by
                intro hx
                rcases List.mem_append.mp hx with hx' | hx'
                · exact hvs hx'
                · exact hv (by simpa using hx')
              rw [if_pos ⟨hvS', hnS1⟩] at h1
              rw [if_pos ⟨hvR, hvs⟩]
              omega
          · rw [if_neg (fun hx => hvS' hx.1)] at h1
            by_cases hvR : v ∈
                (crawlLinks recurse rest (recurse fl ⟨s.links ++ [fl], s.fetched⟩)).links
            · rw [if_pos ⟨hvR, hvS'⟩] at h2
              have hns : v ∉ s.links :=
                fun hx => hvS' (hm1 (List.mem_append_left _ hx))
              rw [if_pos ⟨hvR, hns⟩]
              omega
            · rw [if_neg (fun hx => hvR hx.1)] at h2
              rw [if_neg (fun hx => hvR hx.1)]
              omega

/-- Each URL is fetched at most once per insertion into links, with one
extra attempt allowed for the URL the call itself starts at. -/
theorem crawlAux_count (g : Graph) (c : WebCrawler) :
    ∀ (rem : Nat) (u : String) (d : Nat)
      (hr : max c.max_depth c.outside_depth + 1 ≤ rem + d) (s : CrawlState) (v : String),
      (crawlAux g c rem u d hr s).fetched.count v ≤
        s.fetched.count v + (if v = u then 1 else 0) +
        (if v ∈ (crawlAux g c rem u d hr s).links ∧ v ∉ s.links then 1 else 0) := by
  intro rem
  induction rem with
  | zero =>
      intro u d hr s v
      rw [crawlAux_guard_pos g c 0 u d hr s (crawlGuard_of_zero c u d hr)]
      simp
  | succ k ih =>
      intro u d hr s v
      by_cases hguard : crawlGuard c u d
      · rw [crawlAux_guard_pos g c _ u d hr s hguard]
        simp
      · match hg : g u with
        | none =>
            rw [crawlAux_fetch_fail g c _ u d hr s hguard hg]
            simp only [List.count_append]
            have hcu : List.count v [u] = if v = u then 1 else 0 := by
              by_cases h : v = u
              · subst h; simp
              · simp [List.count_singleton', h, Ne.symm h]
            omega
        | some hrefs =>
            rw [crawlAux_fetch_some g c k u d hr s hguard hrefs hg]
            have hmain := crawlLinks_count
              (fun u' s' => crawlAux_links_mono g c k u' (d + 1) (by omega) s')
              (fun u' s' v' => ih u' (d + 1) (by omega) s' v')
              hrefs ⟨s.links, s.fetched ++ [u]⟩ v
            simp only [List.count_append] at hmain
            have hcu : List.count v [u] = if v = u then 1 else 0 := by
              by_cases h : v = u
              · subst h; simp
              · simp [List.count_singleton', h, Ne.symm h]
            omega

/-- The crawl preserves freedom from duplicates of the links list. -/
theorem crawlAux_nodup (g : Graph) (c : WebCrawler) :
    ∀ (rem : Nat) (u : String) (d : Nat)
      (hr : max c.max_depth c.outside_depth + 1 ≤ rem + d) (s : CrawlState),
      s.links.Nodup → (crawlAux g c rem u d hr s).links.Nodup := by
  intro rem
  induction rem with
  | zero =>
      intro u d hr s hs
      rw [crawlAux_guard_pos g c 0 u d hr s (crawlGuard_of_zero c u d hr)]
      exact hs
  | succ k ih =>
      intro u d hr s hs
      by_cases hguard : crawlGuard c u d
      · rw [crawlAux_guard_pos g c _ u d hr s hguard]; exact hs
      · match hg : g u with
        | none => rw [crawlAux_fetch_fail g c _ u d hr s hguard hg]; exact hs
        | some hrefs =>
            rw [crawlAux_fetch_some g c k u d hr s hguard hrefs hg]
            exact crawlLinks_nodup (fun u' s' => ih u' (d + 1) (by omega) s') hrefs
              ⟨s.links, s.fetched ++ [u]⟩ hs

/-- Characterisation of the guard through the value-level ceiling: the
guard fires exactly when the depth exceeds the limit of the link's
classification. -/
theorem crawlGuard_iff (c : WebCrawler) (u : String) (d : Nat) :
    crawlGuard c u d ↔ (if isWithinPrefix c u then c.max_depth else c.outside_depth) < d := by
  unfold crawlGuard
  cases isWithinPrefix c u <;> simp

/-- One-step unfolding of crawlAux for a successful fetch, for any value
of the termination counter. -/
theorem crawlAux_fetch_some' (g : Graph) (c : WebCrawler) (rem : Nat) (u : String) (d : Nat)
    (hr : max c.max_depth c.outside_depth + 1 ≤ rem + d) (s : CrawlState)
    (hguard : ¬ crawlGuard c u d) (hrefs : List String) (hg : g u = some hrefs) :
    crawlAux g c rem u d hr s =
      crawlLinks (fun u' s' => crawlAux g c (rem - 1) u' (d + 1) (by omega) s') hrefs
        ⟨s.links, s.fetched ++ [u]⟩ := by
  match rem with
  | 0 => exact absurd (crawlGuard_of_zero c u d hr) hguard
  | k + 1 => exact crawlAux_fetch_some g c k u d hr s hguard hrefs hg

/-- Recursing from a successful fetch is the same as crawling each new
href one level deeper, with crawl's own counter. -/
theorem crawl_fetch_some (g : Graph) (c : WebCrawler) (u : String) (d : Nat) (s : CrawlState)
    (hguard : ¬ crawlGuard c u d) (hrefs : List String) (hg : g u = some hrefs) :
    crawl g c u d s =
      crawlLinks (fun u' s' => crawl g c u' (d + 1) s') hrefs
        ⟨s.links, s.fetched ++ [u]⟩ := by
  unfold crawl
  exact crawlAux_fetch_some' g c _ u d (by omega) s hguard hrefs hg

/-! Claim C1. -/

/-- C1 counterexample: with the page of the seed u linking back to u, the
seed is fetched twice in one run: the initial call fetches it, and its
later discovery as a link passes the membership test because the seed was
never inserted into links, so it is fetched again. -/
theorem c1_seed_fetched_twice :
    (start_crawling (graphOf [("u", ["u"])]) (mkWebCrawler "u" 2 1)).fetched = ["u", "u"] ∧
    (start_crawling (graphOf [("u", ["u"])]) (mkWebCrawler "u" 2 1)).fetched.count "u" = 2 := by
  decide

/-- C1 (amended): in one crawl run every URL other than the stored seed
is fetched at most once, the seed is fetched at most twice (the second
time only by being discovered as a link), and the links list never
contains a URL twice. -/
theorem c1_no_refetch_except_seed (g : Graph) (c : WebCrawler) (v : String) :
    (v ≠ c.url → (start_crawling g c).fetched.count v ≤ 1) ∧
    (start_crawling g c).fetched.count v ≤ 2 ∧
    (start_crawling g c).links.Nodup := by
  have hcnt := crawlAux_count g c (max c.max_depth c.outside_depth + 1 - 1) c.url 1
    (by omega) ⟨[], []⟩ v
  have hnd := crawlAux_nodup g c (max c.max_depth c.outside_depth + 1 - 1) c.url 1
    (by omega) ⟨[], []⟩ (by simp)
  simp only [start_crawling, crawl]
  simp only [List.count_nil, List.not_mem_nil, not_false_iff, and_true] at hcnt
  have hb : (if v ∈ (crawlAux g c (max c.max_depth c.outside_depth + 1 - 1) c.url 1
      (by omega) ⟨[], []⟩).links then 1 else 0) ≤ 1 := by
    by_cases hx : v ∈ (crawlAux g c (max c.max_depth c.outside_depth + 1 - 1) c.url 1
        (by omega) ⟨[], []⟩).links
    · rw [if_pos hx]
    · rw [if_neg hx]; omega
  refine ⟨fun hv => ?_, ?_, hnd⟩
  · rw [if_neg hv] at hcnt
    omega
  · by_cases hv : v = c.url
    · rw [if_pos hv] at hcnt
      omega
    · rw [if_neg hv] at hcnt
      omega

/-- C1 witness: the amended bound applied to a URL other than the seed in
the self-link run. -/
theorem c1_no_refetch_except_seed_witness :
    ("x" ≠ (mkWebCrawler "u" 2 1).url) ∧
    (start_crawling (graphOf [("u", ["u"])]) (mkWebCrawler "u" 2 1)).fetched.count "x" ≤ 1 :=
  ⟨by decide,
   (c1_no_refetch_except_seed (graphOf [("u", ["u"])]) (mkWebCrawler "u" 2 1) "x").1 (by decide)⟩

/-! Claim C2. -/

/-- C2 counterexample: when the seed's page has no links the final links
set is empty, so the seed URL is not a member of the final links set, and
in particular links was not initialised to contain the seed. -/
theorem c2_seed_not_in_links :
    (start_crawling (graphOf [("u", [])]) (mkWebCrawler "u" 2 1)).links = [] ∧
    "u" ∉ (start_crawling (graphOf [("u", [])]) (mkWebCrawler "u" 2 1)).links := by
  decide

/-- C2 (amended): the crawl starts from an empty links set and an empty
trace at (seed, depth 1), and every member of the final links set is an
href of some successfully fetched page — so the seed belongs to the final
set only when some fetched page links to it. -/
theorem c2_initial_state_and_membership (g : Graph) (c : WebCrawler) :
    start_crawling g c = crawl g c c.url 1 ⟨[], []⟩ ∧
    (∀ v ∈ (start_crawling g c).links, ∃ w hs, g w = some hs ∧ v ∈ hs) := by
  refine ⟨rfl, fun v hv => ?_⟩
  simp only [start_crawling, crawl] at hv
  rcases crawlAux_links_from g c (max c.max_depth c.outside_depth + 1 - 1) c.url 1
      (by omega) ⟨[], []⟩ v hv with h | h
  · simp at h
  · exact h

/-- C2 witness: in a run whose second page links back to the seed, the
seed is in the final links set and the theorem produces the page that
links to it. -/
theorem c2_initial_state_and_membership_witness :
    ("u" ∈ (start_crawling (graphOf [("u", ["ua"]), ("ua", ["u"])])
        (mkWebCrawler "u" 2 1)).links) ∧
    (∃ w hs, graphOf [("u", ["ua"]), ("ua", ["u"])] w = some hs ∧ "u" ∈ hs) :=
  ⟨by decide,
   (c2_initial_state_and_membership (graphOf [("u", ["ua"]), ("ua", ["u"])])
      (mkWebCrawler "u" 2 1)).2 "u" (by decide)⟩

/-! Claim C3. -/

/-- C3 counterexample: the candidate https://example.com/other has the
same authority component example.com as the seed https://example.com/docs
(their parse results carry equal netloc fields), yet is_within_prefix
classifies it as outside, because the code compares full URL strings by
startswith rather than authority components. -/
theorem c3_same_authority_classified_outside :
    (ParsedUrl.mk "example.com" "/other" "").netloc
        = (ParsedUrl.mk "example.com" "/docs" "").netloc ∧
    isWithinPrefix (mkWebCrawler "https://example.com/docs" 2 1)
        "https://example.com/other" = false := by
  decide

/-- C3 (amended): the classification is a string prefix test against the
seed URL with trailing slashes stripped: a candidate is inside exactly
when its raw URL string extends the stored seed, so a link to a different
path on the same host can be classified outside. -/
theorem c3_isWithinPrefix_iff (url : String) (m o : Nat) (link : String) :
    isWithinPrefix (mkWebCrawler url m o) link = true ↔
      (rstripSlash url).data <+: link.data := by
  simp [isWithinPrefix, mkWebCrawler, startswith, List.isPrefixOf_iff_prefix]

/-- C3 witness: the amended characterisation applied to a concrete seed
and link. -/
theorem c3_isWithinPrefix_iff_witness :
    isWithinPrefix (mkWebCrawler "https://a/b/" 2 1) "https://a/b/c" = true ↔
      (rstripSlash "https://a/b/").data <+: "https://a/b/c".data :=
  c3_isWithinPrefix_iff "https://a/b/" 2 1 "https://a/b/c"

/-! Claim C4. -/

/-- The scenario graph of the spec: the seed page links to a docs page
and an outside page, each of which has one further outbound link. -/
def scenarioGraph : Graph := graphOf
  [("https://example.com/docs",
      ["https://example.com/docs/a", "https://other.org/x"]),
   ("https://example.com/docs/a", ["https://example.com/docs/a/deep"]),
   ("https://other.org/x", ["https://other.org/x/deep"])]

/-- The scenario configuration of the spec: seed with trailing slash,
max_depth 2 and outside_depth 1. -/
def scenarioCrawler : WebCrawler := mkWebCrawler "https://example.com/docs/" 2 1

/-- C4: a frontier entry whose depth exceeds the ceiling of its
classification is neither fetched nor expanded (the state is returned
untouched, so a previously recorded URL stays recorded), while an entry
within the ceiling is fetched, and on success expanded over its page's
links; in the spec's scenario the in-domain link at depth 2 is fetched
and its outbound link recorded, the outside link at depth 2 is recorded
but never fetched, and its outbound link is never discovered. -/
theorem c4_depth_ceiling (g : Graph) (c : WebCrawler) (u : String) (d : Nat) (s : CrawlState) :
    ((if isWithinPrefix c u then c.max_depth else c.outside_depth) < d →
       crawl g c u d s = s) ∧
    (∀ hrefs, d ≤ (if isWithinPrefix c u then c.max_depth else c.outside_depth) →
       g u = some hrefs →
       crawl g c u d s =
         crawlLinks (fun u' s' => crawl g c u' (d + 1) s') hrefs
           ⟨s.links, s.fetched ++ [u]⟩) ∧
    ((start_crawling scenarioGraph scenarioCrawler).links =
       ["https://example.com/docs/a", "https://example.com/docs/a/deep",
        "https://other.org/x"] ∧
     (start_crawling scenarioGraph scenarioCrawler).fetched =
       ["https://example.com/docs", "https://example.com/docs/a"] ∧
     "https://other.org/x/deep" ∉ (start_crawling scenarioGraph scenarioCrawler).links) := by
  refine ⟨fun hlt => ?_, fun hrefs hle hg => ?_, by decide, by decide, by decide⟩
  · exact crawlAux_guard_pos g c _ u d (by omega) s ((crawlGuard_iff c u d).mpr hlt)
  · refine crawl_fetch_some g c u d s (fun hguard => ?_) hrefs hg
    have := (crawlGuard_iff c u d).mp hguard
    omega

/-- C4 witness: the ceiling test applied concretely: an outside URL at
depth 2 with outside_depth 1 is returned untouched, and the seed at depth
1 within max_depth 2 is fetched and expanded over its page's links. -/
theorem c4_depth_ceiling_witness :
    ((if isWithinPrefix (mkWebCrawler "u" 2 1) "x" then (mkWebCrawler "u" 2 1).max_depth
        else (mkWebCrawler "u" 2 1).outside_depth) < 2) ∧
    crawl (graphOf []) (mkWebCrawler "u" 2 1) "x" 2 ⟨[], []⟩ = ⟨[], []⟩ ∧
    (1 ≤ (if isWithinPrefix (mkWebCrawler "u" 2 1) "u" then (mkWebCrawler "u" 2 1).max_depth
        else (mkWebCrawler "u" 2 1).outside_depth)) ∧
    graphOf [("u", [])] "u" = some [] ∧
    crawl (graphOf [("u", [])]) (mkWebCrawler "u" 2 1) "u" 1 ⟨[], []⟩ =
      crawlLinks (fun u' s' => crawl (graphOf [("u", [])]) (mkWebCrawler "u" 2 1) u' 2 s') []
        ⟨[], ["u"]⟩ :=
  ⟨by decide,
   (c4_depth_ceiling (graphOf []) (mkWebCrawler "u" 2 1) "x" 2 ⟨[], []⟩).1 (by decide),
   by decide, by decide,
   (c4_depth_ceiling (graphOf [("u", [])]) (mkWebCrawler "u" 2 1) "u" 1 ⟨[], []⟩).2.1
     [] (by decide) (by decide)⟩

/-! Claim C5. -/

/-- Helper for the fetch-count bounds at the top level: every URL other
than the stored seed is fetched at most once per run, every URL at most
twice, and links stays duplicate-free. -/
theorem start_crawling_fetch_count (g : Graph) (c : WebCrawler) (v : String) :
    (v ≠ c.url → (start_crawling g c).fetched.count v ≤ 1) ∧
    (start_crawling g c).fetched.count v ≤ 2 ∧
    (start_crawling g c).links.Nodup :=
  c1_no_refetch_except_seed g c v

/-- C5: a fetch failure is per-URL and non-fatal: a failed fetch leaves
links untouched and only records the attempt (so the failed URL is not
expanded and the loop continues with the remaining siblings unchanged); a
URL whose fetch fails is attempted at most once per run; links already
collected always survive; and in a concrete run with a broken middle
link, every URL discovered from the other pages is still in the final
links set while the broken URL was attempted exactly once. -/
theorem c5_fetch_failure_isolated (g : Graph) (c : WebCrawler) (u : String) (d : Nat)
    (s : CrawlState) :
    (¬ crawlGuard c u d → g u = none →
       crawl g c u d s = ⟨s.links, s.fetched ++ [u]⟩) ∧
    (g u = none → (start_crawling g c).fetched.count u ≤ 1) ∧
    s.links ⊆ (crawl g c u d s).links ∧
    ((start_crawling (graphOf [("u", ["ua", "ub", "uc"]), ("ua", ["uad"]), ("uc", ["ucd"])])
        (mkWebCrawler "u" 3 1)).links = ["ua", "uad", "ub", "uc", "ucd"] ∧
     (start_crawling (graphOf [("u", ["ua", "ub", "uc"]), ("ua", ["uad"]), ("uc", ["ucd"])])
        (mkWebCrawler "u" 3 1)).fetched = ["u", "ua", "uad", "ub", "uc", "ucd"]) := by
  refine ⟨fun hguard hg => ?_, fun hg => ?_, ?_, by decide, by decide⟩
  · unfold crawl
    exact crawlAux_fetch_fail g c _ u d (by omega) s hguard hg
  · by_cases hu : u = c.url
    · subst hu
      by_cases hguard : crawlGuard c c.url 1
      · rw [start_crawling, crawl, crawlAux_guard_pos g c _ c.url 1 (by omega) ⟨[], []⟩ hguard]
        simp
      · rw [start_crawling, crawl,
          crawlAux_fetch_fail g c _ c.url 1 (by omega) ⟨[], []⟩ hguard hg]
        simp
    · exact (start_crawling_fetch_count g c u).1 hu
  · unfold crawl
    exact crawlAux_links_mono g c _ u d (by omega) s

/-- C5 witness: the failure semantics applied to a concrete broken URL. -/
theorem c5_fetch_failure_isolated_witness :
    (¬ crawlGuard (mkWebCrawler "u" 2 1) "ub" 2) ∧
    graphOf [("u", ["ub"])] "ub" = none ∧
    crawl (graphOf [("u", ["ub"])]) (mkWebCrawler "u" 2 1) "ub" 2 ⟨["ub"], ["u"]⟩ =
      ⟨["ub"], ["u", "ub"]⟩ ∧
    (start_crawling (graphOf [("u", ["ub"])]) (mkWebCrawler "u" 2 1)).fetched.count "ub" ≤ 1 :=
  ⟨by decide, by decide,
   (c5_fetch_failure_isolated (graphOf [("u", ["ub"])]) (mkWebCrawler "u" 2 1) "ub" 2
      ⟨["ub"], ["u"]⟩).1 (by decide) (by decide),
   (c5_fetch_failure_isolated (graphOf [("u", ["ub"])]) (mkWebCrawler "u" 2 1) "ub" 2
      ⟨["ub"], ["u"]⟩).2.1 (by decide)⟩

/-! Claim C7. -/

/-- The name component of the archive filename: the sanitized path, with
the empty and bare-underscore results replaced by index. -/
def pathName (path : String) : String :=
  let safe_path := sanitizeComponent path
  if safe_path = "" ∨ safe_path = "_" then "index" else safe_path

/-- The query component of the archive filename: an underscore and the
sanitized query, present exactly when the query is nonempty. -/
def querySuffix (query : String) : String :=
  if query ≠ "" then "_" ++ sanitizeComponent query else ""

/-- Appending the suffix .html when it is not already there. -/
def forceHtml (filename : String) : String :=
  if endswith filename ".html" then filename else filename ++ ".html"

/-- A string always ends with .html after forceHtml. -/
theorem endswith_forceHtml (filename : String) : endswith (forceHtml filename) ".html" = true := by
  unfold forceHtml
  split
  · assumption
  · simp only [endswith, String.data_append]
    exact List.isSuffixOf_iff_suffix.mpr (List.suffix_append _ _)

/-- Every character of a sanitized component lies in the kept class. -/
theorem sanitizeComponent_chars (s : String) :
    ∀ ch ∈ (sanitizeComponent s).data, keepChar ch = true := by
  intro ch hch
  simp only [sanitizeComponent, List.mem_map] at hch
  rcases hch with ⟨a, _, ha⟩
  by_cases hk : keepChar a = true
  · rw [if_pos hk] at ha; rwa [← ha]
  · rw [if_neg hk] at ha; rw [← ha]; decide

/-- C7 counterexample: the authority component is not sanitized: for the
parse result of http://example.com:8080/a the colon, a non-alphanumeric
character outside the kept class, survives into the filename, so not
every non-alphanumeric character of the URL is replaced. -/
theorem c7_netloc_not_sanitized :
    sanitize_filename ⟨"example.com:8080", "/a", ""⟩ = "example.com:8080_a.html" ∧
    ':' ∈ (sanitize_filename ⟨"example.com:8080", "/a", ""⟩).data ∧
    keepChar ':' = false := by
  decide

/-- C7 (amended): sanitize_filename is deterministic and equals the host
kept verbatim, followed by the sanitized path (an empty or root path
becoming the name component index), followed, when a query is present, by
an underscore and the sanitized query, with the suffix .html forced; the
replacement touches only the path and the query, where every character
outside the class letters, digits, underscore, hyphen, dot becomes an
underscore. -/
theorem c7_sanitize_filename_spec (u : ParsedUrl) :
    sanitize_filename u =
      forceHtml (u.netloc ++ pathName u.path ++ querySuffix u.query) ∧
    endswith (sanitize_filename u) ".html" = true ∧
    (∀ ch ∈ (sanitizeComponent u.path).data, keepChar ch = true) ∧
    (∀ ch ∈ (sanitizeComponent u.query).data, keepChar ch = true) ∧
    ((u.path = "" ∨ u.path = "/") → pathName u.path = "index") ∧
    (∀ v : ParsedUrl, u = v → sanitize_filename u = sanitize_filename v) := by
  have hshape : sanitize_filename u =
      forceHtml (u.netloc ++ pathName u.path ++ querySuffix u.query) := by
    unfold sanitize_filename forceHtml pathName querySuffix
    by_cases hq : u.query = "" <;> simp [hq, String.append_assoc]
  refine ⟨hshape, ?_, sanitizeComponent_chars u.path, sanitizeComponent_chars u.query,
    fun hp => ?_, fun v hv => hv ▸ rfl⟩
  · rw [hshape]; exact endswith_forceHtml _
  · rcases hp with h | h <;> rw [h] <;> decide

/-- C7 witness: the shape and the index rule applied to the parse result
of a URL with a root path. -/
theorem c7_sanitize_filename_spec_witness :
    ((ParsedUrl.mk "h" "/" "").path = "" ∨ (ParsedUrl.mk "h" "/" "").path = "/") ∧
    pathName (ParsedUrl.mk "h" "/" "").path = "index" ∧
    sanitize_filename (ParsedUrl.mk "h" "/" "") =
      forceHtml ((ParsedUrl.mk "h" "/" "").netloc ++ pathName (ParsedUrl.mk "h" "/" "").path
        ++ querySuffix (ParsedUrl.mk "h" "/" "").query) :=
  ⟨Or.inr rfl,
   (c7_sanitize_filename_spec ⟨"h", "/", ""⟩).2.2.2.2.1 (Or.inr rfl),
   (c7_sanitize_filename_spec ⟨"h", "/", ""⟩).1⟩

/-! Claim C8. -/

/-- Looking a key up in the insertion-ordered groups dict, the empty list
when the key is absent. -/
def groupLookup {α : Type} (groups : List (String × List α)) (key : String) : List α :=
  ((groups.find? (fun p => p.1 == key)).map Prod.snd).getD []

/-- Appending under a key touches exactly that key's list. -/
theorem groupLookup_addPair {α : Type} (groups : List (String × List α)) (k : String) (v : α)
    (key : String) :
    groupLookup (addPair groups k v) key =
      groupLookup groups key ++ (if k = key then [v] else []) := by
  induction groups with
  | nil =>
      by_cases hk : k = key
      · subst hk
        unfold groupLookup addPair
        rw [List.find?_cons_of_pos _ (by simp)]
        simp
      · unfold groupLookup addPair
        rw [List.find?_cons_of_neg _ (by simp [hk])]
        simp [hk]
  | cons g rest ih =>
      obtain ⟨gk, gvs⟩ := g
      by_cases hgk : gk = k
      · subst hgk
        rw [show addPair ((gk, gvs) :: rest) gk v = (gk, gvs ++ [v]) :: rest from by
          simp [addPair]]
        by_cases hk : gk = key
        · subst hk
          unfold groupLookup
          rw [List.find?_cons_of_pos _ (by simp), List.find?_cons_of_pos _ (by simp)]
          simp
        · unfold groupLookup
          rw [List.find?_cons_of_neg _ (by simp [hk]), List.find?_cons_of_neg _ (by simp [hk])]
          simp [hk]
      · rw [show addPair ((gk, gvs) :: rest) k v = (gk, gvs) :: addPair rest k v from by
          simp [addPair, hgk]]
        by_cases hk : gk = key
        · subst hk
          have hknk : ¬ k = gk := fun h => hgk h.symm
          unfold groupLookup
          rw [List.find?_cons_of_pos _ (by simp), List.find?_cons_of_pos _ (by simp)]
          simp [hknk]
        · have h1 : groupLookup ((gk, gvs) :: addPair rest k v) key
              = groupLookup (addPair rest k v) key := by
            unfold groupLookup
            rw [List.find?_cons_of_neg _ (by simp [hk])]
          have h2 : groupLookup ((gk, gvs) :: rest) key = groupLookup rest key := by
            unfold groupLookup
            rw [List.find?_cons_of_neg _ (by simp [hk])]
          rw [h1, h2, ih]

/-- Folding the grouping step accumulates, per key, exactly the pairs
whose group key matches, in order. -/
theorem groupFold_lookup (parents : Nat) :
    ∀ (urls : List (ParsedUrl × String)) (groups : List (String × List (ParsedUrl × String)))
      (key : String),
      groupLookup (urls.foldl (fun gs p => addPair gs (groupKey p.1 parents) p) groups) key =
        groupLookup groups key ++ urls.filter (fun p => groupKey p.1 parents == key) := by
  intro urls
  induction urls with
  | nil => intro groups key; simp
  | cons p rest ih =>
      intro groups key
      simp only [List.foldl_cons, List.filter_cons]
      rw [ih]
      rw [groupLookup_addPair]
      by_cases hk : groupKey p.1 parents = key
      · simp [hk]
      · simp [hk]

/-- C8: group_urls_by_prefix partitions the url and filename pairs by the
path with the last parents segments dropped: looking any key up in the
result yields exactly the input pairs carrying that group key, in input
order; and on the spec's scenario with parents 1 the result is exactly
the two groups cat/a (two entries) and cat/b (one entry). -/
theorem c8_group_urls_by_prefix (urls : List (ParsedUrl × String)) (parents : Nat)
    (key : String) :
    (groupLookup (groupUrlsByPrefix urls parents) key =
       urls.filter (fun p => groupKey p.1 parents == key)) ∧
    (groupUrlsByPrefix
        [(⟨"example.com", "/cat/a/1", ""⟩, "f1"), (⟨"example.com", "/cat/a/2", ""⟩, "f2"),
         (⟨"example.com", "/cat/b/1", ""⟩, "f3")] 1 =
      [("cat/a", [(⟨"example.com", "/cat/a/1", ""⟩, "f1"),
                  (⟨"example.com", "/cat/a/2", ""⟩, "f2")]),
       ("cat/b", [(⟨"example.com", "/cat/b/1", ""⟩, "f3")])]) := by
  constructor
  · have h := groupFold_lookup parents urls [] key
    simpa [groupUrlsByPrefix, groupLookup] using h
  · decide

/-! Claim C9. -/

/-- C9: for every argument vector the parser accepts (any url and depth
values), the crawl phase of main ends in TypeError before any crawling:
the construction passes the keyword verbose, which WebCrawler.__init__
does not declare; moreover the attributes finished, visited_count and
parsed_self read elsewhere in main are never assigned by WebCrawler. -/
theorem c9_main_raises_type_error (g : Graph) (url : String) (d od : Nat) :
    mainCrawlPhase g url d od = MainOutcome.typeError ∧
    callRaisesTypeError webCrawlerInitParams mainCrawlerKwargs = true ∧
    webCrawlerInitParams.contains "verbose" = false ∧
    webCrawlerAttrs.contains "finished" = false ∧
    webCrawlerAttrs.contains "visited_count" = false ∧
    webCrawlerAttrs.contains "parsed_self" = false := by
  refine ⟨?_, by decide, by decide, by decide, by decide, by decide⟩
  rw [mainCrawlPhase, if_pos (by decide)]

/-! Claim C10. -/

/-- Writing a file makes its content readable back. -/
theorem fsGet_fsWrite_self (fs : FS) (name content : String) :
    fsGet (fsWrite fs name content) name = some content := by
  induction fs with
  | nil => simp [fsGet, fsWrite, List.find?]
  | cons kv rest ih =>
      obtain ⟨k, v⟩ := kv
      by_cases hk : k = name
      · subst hk
        simp [fsGet, fsWrite, List.find?]
      · unfold fsWrite
        rw [if_neg hk]
        unfold fsGet at ih ⊢
        rw [List.find?_cons_of_neg _ (by simp [hk])]
        exact ih

/-- Writing one file leaves every other file unchanged. -/
theorem fsGet_fsWrite_other (fs : FS) (name content other : String) (h : other ≠ name) :
    fsGet (fsWrite fs name content) other = fsGet fs other := by
  induction fs with
  | nil =>
      unfold fsGet fsWrite
      rw [List.find?_cons_of_neg _ (by simp [Ne.symm h])]
  | cons kv rest ih =>
      obtain ⟨k, v⟩ := kv
      by_cases hk : k = name
      · subst hk
        unfold fsWrite
        rw [if_pos rfl]
        unfold fsGet
        rw [List.find?_cons_of_neg _ (by simp [Ne.symm h]),
          List.find?_cons_of_neg _ (by simp [Ne.symm h])]
      · unfold fsWrite
        rw [if_neg hk]
        by_cases ho : k = other
        · subst ho
          unfold fsGet
          rw [List.find?_cons_of_pos _ (by simp), List.find?_cons_of_pos _ (by simp)]
        · unfold fsGet at ih ⊢
          rw [List.find?_cons_of_neg _ (by simp [ho]),
            List.find?_cons_of_neg _ (by simp [ho])]
          exact ih

/-- Existence is the defined content being present. -/
theorem fsExists_eq_isSome (fs : FS) (name : String) :
    fsExists fs name = (fsGet fs name).isSome := by
  unfold fsExists fsGet
  cases List.find? (fun p => p.1 == name) fs <;> simp

/-- A file that exists still exists after any write. -/
theorem fsExists_fsWrite_mono (fs : FS) (name content other : String)
    (h : fsExists fs other = true) : fsExists (fsWrite fs name content) other = true := by
  by_cases ho : other = name
  · subst ho
    rw [fsExists_eq_isSome, fsGet_fsWrite_self]
    rfl
  · rw [fsExists_eq_isSome, fsGet_fsWrite_other fs name content other ho,
      ← fsExists_eq_isSome]
    exact h

/-- A file that exists still exists after an append. -/
theorem fsExists_fsAppend_mono (fs : FS) (name content other : String)
    (h : fsExists fs other = true) : fsExists (fsAppend fs name content) other = true :=
  fsExists_fsWrite_mono fs name _ other h

/-- Shape of the archive filename: host kept verbatim, then the path
name component, then the query suffix, then the forced .html suffix. -/
theorem sanitize_filename_shape (u : ParsedUrl) :
    sanitize_filename u = forceHtml (u.netloc ++ pathName u.path ++ querySuffix u.query) := by
  unfold sanitize_filename forceHtml pathName querySuffix
  by_cases hq : u.query = "" <;> simp [hq, String.append_assoc]

/-- Every archive filename ends with .html. -/
theorem sanitize_filename_endswith (u : ParsedUrl) :
    endswith (sanitize_filename u) ".html" = true := by
  rw [sanitize_filename_shape]
  exact endswith_forceHtml _

/-- An archive filename never collides with the map file. -/
theorem sanitize_ne_mapFileName (u : ParsedUrl) : sanitize_filename u ≠ mapFileName := by
  intro h
  have he := sanitize_filename_endswith u
  rw [h] at he
  exact absurd he (by decide)

/-- Links that are skipped, or whose fetch fails, leave the store alone
entirely, and in particular append nothing to the map file. -/
theorem downloadStep_skip (dg : String → Option String) (fs : FS) (link : DlUrl)
    (h : startswith link.raw "http" = false ∨
      (image_extensions.any fun ext => endswith (lowerStr link.raw) ext) = true ∨
      fsExists fs (sanitize_filename link.parsed) = true ∨
      dg link.raw = none) :
    downloadStep dg fs link = fs := by
  unfold downloadStep
  by_cases h1 : startswith link.raw "http" = true
  · rw [if_neg (by simp [h1])]
    by_cases h2 : (image_extensions.any fun ext => endswith (lowerStr link.raw) ext) = true
    · rw [if_pos h2]
    · rw [if_neg h2]
      by_cases h3 : fsExists fs (sanitize_filename link.parsed) = true
      · rw [if_pos h3]
      · rw [if_neg h3]
        rcases h with h | h | h | h
        · exact absurd h1 (by simp [h])
        · exact absurd h h2
        · exact absurd h h3
        · rw [h]
  · rw [if_pos (by simp [h1])]

/-- A successful download writes the page file and appends one
tab-separated line to the map file. -/
theorem downloadStep_success (dg : String → Option String) (fs : FS) (link : DlUrl)
    (t : String)
    (h1 : startswith link.raw "http" = true)
    (h2 : (image_extensions.any fun ext => endswith (lowerStr link.raw) ext) = false)
    (h3 : fsExists fs (sanitize_filename link.parsed) = false)
    (ht : dg link.raw = some t) :
    downloadStep dg fs link =
      fsAppend (fsWrite fs (sanitize_filename link.parsed) t) mapFileName
        (link.raw ++ "\t" ++ sanitize_filename link.parsed ++ "\n") := by
  unfold downloadStep
  rw [if_neg (by simp [h1]), if_neg (by simp [h2]), if_neg (by simp [h3]), ht]

/-- A file that exists survives one download step. -/
theorem downloadStep_exists_mono (dg : String → Option String) (fs : FS) (link : DlUrl)
    (other : String) (h : fsExists fs other = true) :
    fsExists (downloadStep dg fs link) other = true := by
  by_cases h1 : startswith link.raw "http" = true
  · by_cases h2 : (image_extensions.any fun ext => endswith (lowerStr link.raw) ext) = true
    · rw [downloadStep_skip dg fs link (Or.inr (Or.inl h2))]; exact h
    · by_cases h3 : fsExists fs (sanitize_filename link.parsed) = true
      · rw [downloadStep_skip dg fs link (Or.inr (Or.inr (Or.inl h3)))]; exact h
      · cases ht : dg link.raw with
        | none => rw [downloadStep_skip dg fs link (Or.inr (Or.inr (Or.inr ht)))]; exact h
        | some t =>
            rw [downloadStep_success dg fs link t h1 (by simpa using h2)
              (by simpa using h3) ht]
            exact fsExists_fsAppend_mono _ _ _ _ (fsExists_fsWrite_mono _ _ _ _ h)
  · rw [downloadStep_skip dg fs link (Or.inl (by simpa using h1))]; exact h

/-- A file that exists survives the whole download loop. -/
theorem download_loop_exists_mono (dg : String → Option String) :
    ∀ (links : List DlUrl) (fs : FS) (other : String),
      fsExists fs other = true →
      fsExists (links.foldl (downloadStep dg) fs) other = true := by
  intro links
  induction links with
  | nil => intro fs other h; simpa using h
  | cons l0 rest ih =>
      intro fs other h
      simp only [List.foldl_cons]
      exact ih _ other (downloadStep_exists_mono dg fs l0 other h)

/-- After the loop, a downloadable link's derived file exists. -/
theorem download_loop_ensures (dg : String → Option String) :
    ∀ (links : List DlUrl) (fs : FS) (l : DlUrl), l ∈ links →
      startswith l.raw "http" = true →
      (image_extensions.any fun ext => endswith (lowerStr l.raw) ext) = false →
      ∀ t, dg l.raw = some t →
      fsExists (links.foldl (downloadStep dg) fs) (sanitize_filename l.parsed) = true := by
  intro links
  induction links with
  | nil => intro fs l hl; simp at hl
  | cons l0 rest ih =>
      intro fs l hl h1 h2 t ht
      simp only [List.foldl_cons]
      rcases List.mem_cons.mp hl with rfl | hl'
      · apply download_loop_exists_mono
        by_cases h3 : fsExists fs (sanitize_filename l.parsed) = true
        · rw [downloadStep_skip dg fs l (Or.inr (Or.inr (Or.inl h3)))]; exact h3
        · rw [downloadStep_success dg fs l t h1 h2 (by simpa using h3) ht]
          apply fsExists_fsAppend_mono
          rw [fsExists_eq_isSome, fsGet_fsWrite_self]
          rfl
      · exact ih _ l hl' h1 h2 t ht

/-- When every downloadable link's file already exists, the loop does
nothing at all. -/
theorem download_loop_noop (dg : String → Option String) :
    ∀ (links : List DlUrl) (fs : FS),
      (∀ l ∈ links, startswith l.raw "http" = true →
        (image_extensions.any fun ext => endswith (lowerStr l.raw) ext) = false →
        ∀ t, dg l.raw = some t → fsExists fs (sanitize_filename l.parsed) = true) →
      links.foldl (downloadStep dg) fs = fs := by
  intro links
  induction links with
  | nil => intro fs _; simp
  | cons l0 rest ih =>
      intro fs hfs
      simp only [List.foldl_cons]
      have hstep : downloadStep dg fs l0 = fs := by
        by_cases h1 : startswith l0.raw "http" = true
        · by_cases h2 : (image_extensions.any fun ext => endswith (lowerStr l0.raw) ext) = true
          · exact downloadStep_skip dg fs l0 (Or.inr (Or.inl h2))
          · cases ht : dg l0.raw with
            | none => exact downloadStep_skip dg fs l0 (Or.inr (Or.inr (Or.inr ht)))
            | some t =>
                exact downloadStep_skip dg fs l0 (Or.inr (Or.inr (Or.inl
                  (hfs l0 (by simp) h1 (by simpa using h2) t ht))))
        · exact downloadStep_skip dg fs l0 (Or.inl (by simpa using h1))
      rw [hstep]
      exact ih fs (fun l hl => hfs l (by simp [hl]))

/-- Map-file content after a successful download: the old content with
one tab-separated line appended. -/
theorem downloadStep_success_map (dg : String → Option String) (fs : FS) (link : DlUrl)
    (t : String)
    (h1 : startswith link.raw "http" = true)
    (h2 : (image_extensions.any fun ext => endswith (lowerStr link.raw) ext) = false)
    (h3 : fsExists fs (sanitize_filename link.parsed) = false)
    (ht : dg link.raw = some t) :
    fsGet (downloadStep dg fs link) mapFileName =
      some (((fsGet fs mapFileName).getD "") ++
        (link.raw ++ "\t" ++ sanitize_filename link.parsed ++ "\n")) := by
  rw [downloadStep_success dg fs link t h1 h2 h3 ht]
  unfold fsAppend
  rw [fsGet_fsWrite_self,
    fsGet_fsWrite_other fs (sanitize_filename link.parsed) t mapFileName
      (Ne.symm (sanitize_ne_mapFileName link.parsed))]

/-- C10: with a nonempty link collection download_all first truncates the
map file and then runs the loop; a skipped or failed link changes nothing
(so it is never logged), a successful download appends exactly one
tab-separated line, and an immediate second run over the same links and
store leaves the map file empty. -/
theorem c10_download_map (dg : String → Option String) (links : List DlUrl) (fs : FS)
    (h : links ≠ []) :
    download_all dg links fs = links.foldl (downloadStep dg) (fsWrite fs mapFileName "") ∧
    (∀ (fs0 : FS) (link : DlUrl),
      (startswith link.raw "http" = false ∨
        (image_extensions.any fun ext => endswith (lowerStr link.raw) ext) = true ∨
        fsExists fs0 (sanitize_filename link.parsed) = true ∨
        dg link.raw = none) →
      downloadStep dg fs0 link = fs0) ∧
    (∀ (fs0 : FS) (link : DlUrl) (t : String),
      startswith link.raw "http" = true →
      (image_extensions.any fun ext => endswith (lowerStr link.raw) ext) = false →
      fsExists fs0 (sanitize_filename link.parsed) = false →
      dg link.raw = some t →
      fsGet (downloadStep dg fs0 link) mapFileName =
        some (((fsGet fs0 mapFileName).getD "") ++
          (link.raw ++ "\t" ++ sanitize_filename link.parsed ++ "\n"))) ∧
    fsGet (download_all dg links (download_all dg links fs)) mapFileName = some "" := by
  have hunfold : ∀ fs' : FS, download_all dg links fs' =
      links.foldl (downloadStep dg) (fsWrite fs' mapFileName "") := by
    intro fs'
    unfold download_all
    rw [if_neg (fun hx => h (List.length_eq_zero.mp hx))]
  refine ⟨hunfold fs, fun fs0 link hh => downloadStep_skip dg fs0 link hh,
    fun fs0 link t h1 h2 h3 ht => downloadStep_success_map dg fs0 link t h1 h2 h3 ht, ?_⟩
  rw [hunfold, hunfold]
  rw [download_loop_noop dg links
    (fsWrite (links.foldl (downloadStep dg) (fsWrite fs mapFileName "")) mapFileName "")
    (fun l hl h1 h2 t ht => fsExists_fsWrite_mono _ _ _ _
      (download_loop_ensures dg links (fsWrite fs mapFileName "") l hl h1 h2 t ht))]
  exact fsGet_fsWrite_self _ mapFileName ""

/-- Page bodies for the witness run, as a finite lookup. -/
def pagesOf (l : List (String × String)) : String → Option String :=
  fun u => (l.find? (fun p => p.1 == u)).map Prod.snd

/-- C10 witness: a one-link run repeated twice from an empty store leaves
the map file empty after the second run. -/
theorem c10_download_map_witness :
    ([DlUrl.mk "http://a" (ParsedUrl.mk "a" "/p" "")] ≠ []) ∧
    fsGet (download_all (pagesOf [("http://a", "body")])
        [DlUrl.mk "http://a" (ParsedUrl.mk "a" "/p" "")]
        (download_all (pagesOf [("http://a", "body")])
          [DlUrl.mk "http://a" (ParsedUrl.mk "a" "/p" "")] []))
      mapFileName = some "" :=
  ⟨by decide,
   (c10_download_map (pagesOf [("http://a", "body")])
      [DlUrl.mk "http://a" (ParsedUrl.mk "a" "/p" "")] [] (by decide)).2.2.2⟩

/-! Claim C6.  The engine saturates each fetched page's links into the
visited list; when the depth ceilings never prune, both processing orders
compute exactly the discoverable closure. -/

/-- A URL's page is saturated into the list L: when its fetch succeeds,
all its hrefs are in L. -/
def Sat (g : Graph) (L : List String) (v : String) : Prop :=
  ∀ hs, g v = some hs → ∀ x ∈ hs, x ∈ L

/-- Saturation is monotone in the list. -/
theorem Sat_mono {g : Graph} {L L' : List String} {v : String}
    (hL : L ⊆ L') (h : Sat g L v) : Sat g L' v :=
  fun hs hv x hx => hL (h hs hv x hx)

/-- With both ceilings at least B, no depth up to B is pruned. -/
theorem not_crawlGuard_of_big {c : WebCrawler} {u : String} {d B : Nat}
    (hm : B ≤ c.max_depth) (ho : B ≤ c.outside_depth) (hd : d ≤ B) :
    ¬ crawlGuard c u d := by
  unfold crawlGuard
  cases isWithinPrefix c u <;> simp <;> omega

/-- A duplicate-free list included in another is no longer than it. -/
theorem nodup_subset_length {l u : List String} (hn : l.Nodup) (hs : l ⊆ u) :
    l.length ≤ u.length := by
  calc l.length = l.toFinset.card := (List.toFinset_card_of_nodup hn).symm
    _ ≤ u.toFinset.card := Finset.card_le_card
        (fun x hx => List.mem_toFinset.mpr (hs (List.mem_toFinset.mp hx)))
    _ ≤ u.length := u.toFinset_card_le

/-- The loop only appends to the links list when the recursive call only
appends to it. -/
theorem crawlLinks_links_prefix {recurse : String → CrawlState → CrawlState}
    (Hpre : ∀ u s, s.links <+: (recurse u s).links) :
    ∀ (l : List String) (s : CrawlState), s.links <+: (crawlLinks recurse l s).links := by
  intro l
  induction l with
  | nil => intro s; simp [crawlLinks]
  | cons fl rest ih =>
      intro s
      simp only [crawlLinks]
      by_cases hfl : fl ∈ s.links
      · simpa [hfl] using ih s
      · refine List.IsPrefix.trans ?_ (ih _)
        simp only [hfl, if_neg, if_false]
        exact List.IsPrefix.trans ⟨[fl], rfl⟩ (Hpre fl ⟨s.links ++ [fl], s.fetched⟩)

/-- The crawl only appends to the links list. -/
theorem crawlAux_links_prefix (g : Graph) (c : WebCrawler) :
    ∀ (rem : Nat) (u : String) (d : Nat)
      (hr : max c.max_depth c.outside_depth + 1 ≤ rem + d) (s : CrawlState),
      s.links <+: (crawlAux g c rem u d hr s).links := by
  intro rem
  induction rem with
  | zero =>
      intro u d hr s
      rw [crawlAux_guard_pos g c 0 u d hr s (crawlGuard_of_zero c u d hr)]
  | succ k ih =>
      intro u d hr s
      by_cases hguard : crawlGuard c u d
      · rw [crawlAux_guard_pos g c _ u d hr s hguard]
      · match hg : g u with
        | none => rw [crawlAux_fetch_fail g c _ u d hr s hguard hg]
        | some hrefs =>
            rw [crawlAux_fetch_some g c k u d hr s hguard hrefs hg]
            exact crawlLinks_links_prefix (fun u' s' => ih u' (d + 1) (by omega) s') hrefs
              ⟨s.links, s.fetched ++ [u]⟩

/-- Saturation through the loop: given the recursive call saturates the
page of its URL and of every fresh link it adds, the loop saturates all
the iterated hrefs and every fresh link of the result. -/
theorem crawlLinksSat {g : Graph} {U : List String}
    {recurse : String → CrawlState → CrawlState} {d : Nat}
    (Hpre : ∀ u' s', s'.links <+: (recurse u' s').links)
    (Hnd : ∀ u' s', s'.links.Nodup → (recurse u' s').links.Nodup)
    (Hrec : ∀ u' s', d + 1 ≤ s'.links.length + 1 → s'.links ⊆ U → s'.links.Nodup →
      ((recurse u' s').links ⊆ U ∧
       (∀ hs, g u' = some hs → ∀ x ∈ hs, x ∈ (recurse u' s').links) ∧
       (∀ v ∈ (recurse u' s').links, v ∈ s'.links ∨ Sat g (recurse u' s').links v))) :
    ∀ (l : List String) (s : CrawlState),
      (∀ x ∈ l, x ∈ U) → d ≤ s.links.length + 1 → s.links ⊆ U → s.links.Nodup →
      ((crawlLinks recurse l s).links ⊆ U ∧
       (∀ x ∈ l, x ∈ (crawlLinks recurse l s).links) ∧
       (∀ v ∈ (crawlLinks recurse l s).links,
          v ∈ s.links ∨ Sat g (crawlLinks recurse l s).links v)) := by
  intro l
  induction l with
  | nil =>
      intro s _ _ hsU hnd
      refine ⟨by simpa [crawlLinks] using hsU, by simp, ?_⟩
      intro v hv
      exact Or.inl (by simpa [crawlLinks] using hv)
  | cons fl rest ih =>
      intro s hl hd hsU hnd
      simp only [crawlLinks]
      by_cases hfl : fl ∈ s.links
      · simp only [hfl, if_pos, if_true]
        obtain ⟨h1, h2, h3⟩ := ih s (fun x hx => hl x (by simp [hx])) hd hsU hnd
        refine ⟨h1, ?_, h3⟩
        intro x hx
        rcases List.mem_cons.mp hx with rfl | hx'
        · exact crawlLinks_links_mono (fun u' s' => (Hpre u' s').subset) rest s hfl
        · exact h2 x hx'
      · simp only [hfl, if_neg, if_false]
        have hs1U : (CrawlState.mk (s.links ++ [fl]) s.fetched).links ⊆ U := by
          intro x hx
          rcases List.mem_append.mp hx with hx' | hx'
          · exact hsU hx'
          · have : x = fl := by simpa using hx'
            exact this ▸ hl fl (by simp)
        have hs1nd : (CrawlState.mk (s.links ++ [fl]) s.fetched).links.Nodup := by
          simpa [List.nodup_append] using ⟨hnd, hfl⟩
        have hs1d : d + 1 ≤ (CrawlState.mk (s.links ++ [fl]) s.fetched).links.length + 1 := by
          simp only [List.length_append, List.length_cons, List.length_nil]
          omega
        obtain ⟨hrU, hrPage, hrNew⟩ := Hrec fl ⟨s.links ++ [fl], s.fetched⟩ hs1d hs1U hs1nd
        have hrePre := Hpre fl ⟨s.links ++ [fl], s.fetched⟩
        have hrLen : d ≤ (recurse fl ⟨s.links ++ [fl], s.fetched⟩).links.length + 1 := by
          have := hrePre.length_le
          simp only [List.length_append, List.length_cons, List.length_nil] at this
          omega
        obtain ⟨h1, h2, h3⟩ := ih (recurse fl ⟨s.links ++ [fl], s.fetched⟩)
          (fun x hx => hl x (by simp [hx])) hrLen hrU
          (Hnd fl ⟨s.links ++ [fl], s.fetched⟩ hs1nd)
        have hrSubT : (recurse fl ⟨s.links ++ [fl], s.fetched⟩).links ⊆
            (crawlLinks recurse rest (recurse fl ⟨s.links ++ [fl], s.fetched⟩)).links :=
          crawlLinks_links_mono (fun u' s' => (Hpre u' s').subset) rest _
        refine ⟨h1, ?_, ?_⟩
        · intro x hx
          rcases List.mem_cons.mp hx with rfl | hx'
          · exact hrSubT (hrePre.subset (by simp))
          · exact h2 x hx'
        · intro v hv
          rcases h3 v hv with hv' | hv'
          · rcases hrNew v hv' with hv'' | hv''
            · rcases List.mem_append.mp hv'' with hx | hx
              · exact Or.inl hx
              · have hveq : v = fl := by simpa using hx
                subst hveq
                refine Or.inr (fun hs hgv x hx => ?_)
                exact hrSubT (hrPage hs hgv x hx)
            · exact Or.inr (Sat_mono hrSubT hv'')
          · exact Or.inr hv'

/-- Saturation of the crawl when the ceilings never prune: the result
stays within the URL universe, the crawled page's links all end up in the
result, and every freshly added URL is saturated in the result. -/
theorem crawlAuxSat (g : Graph) (c : WebCrawler) (U : List String)
    (hU : ∀ v hs, g v = some hs → ∀ x ∈ hs, x ∈ U)
    (hm : U.length + 1 ≤ c.max_depth) (ho : U.length + 1 ≤ c.outside_depth) :
    ∀ (rem : Nat) (u : String) (d : Nat)
      (hr : max c.max_depth c.outside_depth + 1 ≤ rem + d) (s : CrawlState),
      d ≤ s.links.length + 1 → s.links ⊆ U → s.links.Nodup →
      ((crawlAux g c rem u d hr s).links ⊆ U ∧
       (∀ hs, g u = some hs → ∀ x ∈ hs, x ∈ (crawlAux g c rem u d hr s).links) ∧
       (∀ v ∈ (crawlAux g c rem u d hr s).links,
          v ∈ s.links ∨ Sat g (crawlAux g c rem u d hr s).links v)) := by
  intro rem
  induction rem with
  | zero =>
      intro u d hr s hd hsU hnd
      exfalso
      have hlen := nodup_subset_length hnd hsU
      have h1 : c.max_depth ≤ max c.max_depth c.outside_depth := le_max_left _ _
      omega
  | succ k ih =>
      intro u d hr s hd hsU hnd
      have hlen := nodup_subset_length hnd hsU
      have hguard : ¬ crawlGuard c u d :=
        not_crawlGuard_of_big hm ho (show d ≤ U.length + 1 by omega)
      match hg : g u with
      | none =>
          rw [crawlAux_fetch_fail g c _ u d hr s hguard hg]
          refine ⟨hsU, fun hs hgu => ?_, fun v hv => Or.inl hv⟩
          exact absurd hgu (by simp)
      | some hrefs =>
          rw [crawlAux_fetch_some g c k u d hr s hguard hrefs hg]
          obtain ⟨h1, h2, h3⟩ := crawlLinksSat
            (fun u' s' => crawlAux_links_prefix g c k u' (d + 1) (by omega) s')
            (fun u' s' => crawlAux_nodup g c k u' (d + 1) (by omega) s')
            (fun u' s' hd' hU' hnd' => ih u' (d + 1) (by omega) s' hd' hU' hnd')
            hrefs ⟨s.links, s.fetched ++ [u]⟩
            (fun x hx => hU u hrefs hg x hx) hd hsU hnd
          refine ⟨h1, fun hs hgu => ?_, h3⟩
          obtain rfl : hrefs = hs := by simpa using hgu
          exact h2

/-- Soundness through the loop: links added by the loop satisfy P when
the iterated hrefs do and the recursive call preserves that. -/
theorem crawlLinks_sound {P : String → Prop}
    {recurse : String → CrawlState → CrawlState}
    (Hrec : ∀ u' s', P u' → (∀ v ∈ s'.links, P v) → ∀ v ∈ (recurse u' s').links, P v) :
    ∀ (l : List String) (s : CrawlState), (∀ x ∈ l, P x) → (∀ v ∈ s.links, P v) →
      ∀ v ∈ (crawlLinks recurse l s).links, P v := by
  intro l
  induction l with
  | nil => intro s _ hs v hv; exact hs v (by simpa [crawlLinks] using hv)
  | cons fl rest ih =>
      intro s hl hs v hv
      simp only [crawlLinks] at hv
      by_cases hfl : fl ∈ s.links
      · simp only [hfl, if_pos, if_true] at hv
        exact ih s (fun x hx => hl x (by simp [hx])) hs v hv
      · simp only [hfl, if_neg, if_false] at hv
        refine ih _ (fun x hx => hl x (by simp [hx])) ?_ v hv
        refine Hrec fl ⟨s.links ++ [fl], s.fetched⟩ (hl fl (by simp)) ?_
        intro x hx
        rcases List.mem_append.mp hx with hx' | hx'
        · exact hs x hx'
        · have : x = fl := by simpa using hx'
          exact this ▸ hl fl (by simp)

/-- Soundness of the crawl: starting from the seed or a discoverable URL
with only discoverable links collected, every link of the result is
discoverable. -/
theorem crawlAux_sound (g : Graph) (c : WebCrawler) (root : String) :
    ∀ (rem : Nat) (u : String) (d : Nat)
      (hr : max c.max_depth c.outside_depth + 1 ≤ rem + d) (s : CrawlState),
      (u = root ∨ Discovered g root u) →
      (∀ v ∈ s.links, Discovered g root v) →
      ∀ v ∈ (crawlAux g c rem u d hr s).links, Discovered g root v := by
  intro rem
  induction rem with
  | zero =>
      intro u d hr s _ hs v hv
      rw [crawlAux_guard_pos g c 0 u d hr s (crawlGuard_of_zero c u d hr)] at hv
      exact hs v hv
  | succ k ih =>
      intro u d hr s hu hs v hv
      by_cases hguard : crawlGuard c u d
      · rw [crawlAux_guard_pos g c _ u d hr s hguard] at hv
        exact hs v hv
      · match hg : g u with
        | none =>
            rw [crawlAux_fetch_fail g c _ u d hr s hguard hg] at hv
            exact hs v hv
        | some hrefs =>
            rw [crawlAux_fetch_some g c k u d hr s hguard hrefs hg] at hv
            have hhrefs : ∀ x ∈ hrefs, Discovered g root x := by
              intro x hx
              rcases hu with rfl | hu'
              · exact Discovered.seed_step hrefs x hg hx
              · exact Discovered.step u hrefs x hu' hg hx
            exact crawlLinks_sound
              (fun u' s' hu' hs' => ih u' (d + 1) (by omega) s' (Or.inr hu') hs')
              hrefs ⟨s.links, s.fetched ++ [u]⟩ hhrefs hs v hv

/-- With ceilings that never prune, the depth-first engine computes
exactly the discoverable closure of the seed. -/
theorem dfs_eq_discovered (g : Graph) (c : WebCrawler) (U : List String)
    (hU : ∀ v hs, g v = some hs → ∀ x ∈ hs, x ∈ U)
    (hm : U.length + 1 ≤ c.max_depth) (ho : U.length + 1 ≤ c.outside_depth) :
    ∀ v, v ∈ (start_crawling g c).links ↔ Discovered g c.url v := by
  have hsat := crawlAuxSat g c U hU hm ho (max c.max_depth c.outside_depth + 1 - 1)
    c.url 1 (by omega) ⟨[], []⟩ (by simp) (by simp) (by simp)
  obtain ⟨-, hpage, hnew⟩ := hsat
  intro v
  constructor
  · intro hv
    simp only [start_crawling, crawl] at hv
    exact crawlAux_sound g c c.url _ c.url 1 (by omega) ⟨[], []⟩ (Or.inl rfl)
      (by simp) v hv
  · intro hv
    simp only [start_crawling, crawl]
    induction hv with
    | seed_step hs u hg hu => exact hpage hs hg u hu
    | step w hs u hw hg hu ihw =>
        have hsatw := hnew w ihw
        rcases hsatw with h | h
        · simp at h
        · exact h hs hg u hu

/-! Properties of the discovery fold of the breadth-first engine. -/

/-- The visited list only grows by appending during expansion. -/
theorem bfsExpand_prefix1 (d : Nat) :
    ∀ (hrefs : List String) (L : List String) (A : List (String × Nat)),
      L <+: (hrefs.foldl (bfsExpand d) (L, A)).1 := by
  intro hrefs
  induction hrefs with
  | nil => intro L A; simp
  | cons x hs ih =>
      intro L A
      simp only [List.foldl_cons, bfsExpand]
      by_cases hx : x ∈ L
      · simpa [hx] using ih L A
      · simp only [hx, if_neg, if_false]
        exact List.IsPrefix.trans ⟨[x], rfl⟩ (ih _ _)

/-- The pending entries only grow by appending during expansion. -/
theorem bfsExpand_prefix2 (d : Nat) :
    ∀ (hrefs : List String) (L : List String) (A : List (String × Nat)),
      A <+: (hrefs.foldl (bfsExpand d) (L, A)).2 := by
  intro hrefs
  induction hrefs with
  | nil => intro L A; simp
  | cons x hs ih =>
      intro L A
      simp only [List.foldl_cons, bfsExpand]
      by_cases hx : x ∈ L
      · simpa [hx] using ih L A
      · simp only [hx, if_neg, if_false]
        exact List.IsPrefix.trans ⟨[(x, d + 1)], rfl⟩ (ih _ _)

/-- Every iterated href is visited after the expansion. -/
theorem bfsExpand_covers (d : Nat) :
    ∀ (hrefs : List String) (L : List String) (A : List (String × Nat)),
      ∀ x ∈ hrefs, x ∈ (hrefs.foldl (bfsExpand d) (L, A)).1 := by
  intro hrefs
  induction hrefs with
  | nil => intro L A x hx; simp at hx
  | cons y hs ih =>
      intro L A x hx
      simp only [List.foldl_cons, bfsExpand]
      rcases List.mem_cons.mp hx with rfl | hx'
      · by_cases hy : x ∈ L
        · simp only [hy, if_pos, if_true]
          exact (bfsExpand_prefix1 d hs L A).subset hy
        · simp only [hy, if_neg, if_false]
          exact (bfsExpand_prefix1 d hs (L ++ [x]) (A ++ [(x, d + 1)])).subset (by simp)
      · by_cases hy : y ∈ L
        · simp only [hy, if_pos, if_true]
          exact ih L A x hx'
        · simp only [hy, if_neg, if_false]
          exact ih _ _ x hx'

/-- Every visited URL after the expansion was visited before or is one of
the iterated hrefs. -/
theorem bfsExpand_from (d : Nat) :
    ∀ (hrefs : List String) (L : List String) (A : List (String × Nat)),
      ∀ v ∈ (hrefs.foldl (bfsExpand d) (L, A)).1, v ∈ L ∨ v ∈ hrefs := by
  intro hrefs
  induction hrefs with
  | nil => intro L A v hv; exact Or.inl (by simpa using hv)
  | cons y hs ih =>
      intro L A v hv
      simp only [List.foldl_cons, bfsExpand] at hv
      by_cases hy : y ∈ L
      · simp only [hy, if_pos, if_true] at hv
        rcases ih L A v hv with h | h
        · exact Or.inl h
        · exact Or.inr (by simp [h])
      · simp only [hy, if_neg, if_false] at hv
        rcases ih _ _ v hv with h | h
        · rcases List.mem_append.mp h with h' | h'
          · exact Or.inl h'
          · have : v = y := by simpa using h'
            exact Or.inr (by simp [this])
        · exact Or.inr (by simp [h])

/-- The visited list stays duplicate-free through the expansion. -/
theorem bfsExpand_nodup (d : Nat) :
    ∀ (hrefs : List String) (L : List String) (A : List (String × Nat)),
      L.Nodup → (hrefs.foldl (bfsExpand d) (L, A)).1.Nodup := by
  intro hrefs
  induction hrefs with
  | nil => intro L A h; simpa using h
  | cons y hs ih =>
      intro L A h
      simp only [List.foldl_cons, bfsExpand]
      by_cases hy : y ∈ L
      · simp only [hy, if_pos, if_true]
        exact ih L A h
      · simp only [hy, if_neg, if_false]
        exact ih _ _ (by simpa [List.nodup_append] using ⟨h, hy⟩)

/-- Every pending entry after the expansion was pending before or is a
fresh href enqueued one level deeper. -/
theorem bfsExpand_entries (d : Nat) :
    ∀ (hrefs : List String) (L : List String) (A : List (String × Nat)),
      ∀ e ∈ (hrefs.foldl (bfsExpand d) (L, A)).2, e ∈ A ∨ (e.1 ∈ hrefs ∧ e.2 = d + 1) := by
  intro hrefs
  induction hrefs with
  | nil => intro L A e he; exact Or.inl (by simpa using he)
  | cons y hs ih =>
      intro L A e he
      simp only [List.foldl_cons, bfsExpand] at he
      by_cases hy : y ∈ L
      · simp only [hy, if_pos, if_true] at he
        rcases ih L A e he with h | h
        · exact Or.inl h
        · exact Or.inr ⟨by simp [h.1], h.2⟩
      · simp only [hy, if_neg, if_false] at he
        rcases ih _ _ e he with h | h
        · rcases List.mem_append.mp h with h' | h'
          · exact Or.inl h'
          · have : e = (y, d + 1) := by simpa using h'
            exact Or.inr ⟨by simp [this], by simp [this]⟩
        · exact Or.inr ⟨by simp [h.1], h.2⟩

/-- Every visited URL after the expansion was visited before or has a
pending entry one level deeper. -/
theorem bfsExpand_pending (d : Nat) :
    ∀ (hrefs : List String) (L : List String) (A : List (String × Nat)),
      ∀ v ∈ (hrefs.foldl (bfsExpand d) (L, A)).1,
        v ∈ L ∨ (v, d + 1) ∈ (hrefs.foldl (bfsExpand d) (L, A)).2 := by
  intro hrefs
  induction hrefs with
  | nil => intro L A v hv; exact Or.inl (by simpa using hv)
  | cons y hs ih =>
      intro L A v hv
      simp only [List.foldl_cons, bfsExpand] at hv ⊢
      by_cases hy : y ∈ L
      · simp only [hy, if_pos, if_true] at hv ⊢
        exact ih L A v hv
      · simp only [hy, if_neg, if_false] at hv ⊢
        rcases ih _ _ v hv with h | h
        · rcases List.mem_append.mp h with h' | h'
          · exact Or.inl h'
          · have hvy : v = y := by simpa using h'
            subst hvy
            exact Or.inr ((bfsExpand_prefix2 d hs (L ++ [v]) (A ++ [(v, d + 1)])).subset
              (by simp))
        · exact Or.inr h

/-- Expansion enqueues exactly one entry per fresh visited URL. -/
theorem bfsExpand_length (d : Nat) :
    ∀ (hrefs : List String) (L : List String) (A : List (String × Nat)),
      (hrefs.foldl (bfsExpand d) (L, A)).1.length + A.length =
        L.length + (hrefs.foldl (bfsExpand d) (L, A)).2.length := by
  intro hrefs
  induction hrefs with
  | nil => intro L A; simp
  | cons y hs ih =>
      intro L A
      simp only [List.foldl_cons, bfsExpand]
      by_cases hy : y ∈ L
      · simp only [hy, if_pos, if_true]
        exact ih L A
      · simp only [hy, if_neg, if_false]
        have := ih (L ++ [y]) (A ++ [(y, d + 1)])
        simp only [List.length_append, List.length_cons, List.length_nil] at this ⊢
        omega

/-- Soundness of the breadth-first engine: starting from a frontier of
the seed or discoverable URLs and a visited list of discoverable URLs,
every URL it returns is discoverable. -/
theorem bfs_sound (g : Graph) (c : WebCrawler) (root : String) :
    ∀ (fuel : Nat) (frontier : List (String × Nat)) (links : List String),
      (∀ e ∈ frontier, e.1 = root ∨ Discovered g root e.1) →
      (∀ v ∈ links, Discovered g root v) →
      ∀ v ∈ bfs g c fuel frontier links, Discovered g root v := by
  intro fuel
  induction fuel with
  | zero => intro frontier links _ hl v hv; exact hl v (by simpa [bfs] using hv)
  | succ k ih =>
      intro frontier links hf hl v hv
      match frontier with
      | [] => exact hl v (by simpa [bfs] using hv)
      | (u, dd) :: rest =>
          simp only [bfs] at hv
          split at hv
          · exact ih rest links (fun e he => hf e (by simp [he])) hl v hv
          · split at hv
            · exact ih rest links (fun e he => hf e (by simp [he])) hl v hv
            · rename_i hrefs hg
              have hu : u = root ∨ Discovered g root u :=
                hf (u, dd) (by simp)
              have hhrefs : ∀ x ∈ hrefs, Discovered g root x := by
                intro x hx
                rcases hu with rfl | hu'
                · exact Discovered.seed_step hrefs x hg hx
                · exact Discovered.step u hrefs x hu' hg hx
              refine ih _ _ ?_ ?_ v hv
              · intro e he
                rcases List.mem_append.mp he with he' | he'
                · exact hf e (by simp [he'])
                · rcases bfsExpand_entries dd hrefs links [] e he' with h | h
                  · simp at h
                  · exact Or.inr (hhrefs e.1 h.1)
              · intro x hx
                rcases bfsExpand_from dd hrefs links [] x hx with h | h
                · exact hl x h
                · exact hhrefs x h

/-- Completeness of the breadth-first engine when the ceilings never
prune and the fuel dominates the pending and remaining work: the visited
list only grows, stays inside the universe, every pending page is
saturated into the result, and every returned URL is saturated. -/
theorem bfsSat (g : Graph) (c : WebCrawler) (U : List String)
    (hU : ∀ v hs, g v = some hs → ∀ x ∈ hs, x ∈ U)
    (hm : U.length + 1 ≤ c.max_depth) (ho : U.length + 1 ≤ c.outside_depth) :
    ∀ (fuel : Nat) (frontier : List (String × Nat)) (links : List String),
      frontier.length + (U.length - links.length) < fuel →
      (∀ e ∈ frontier, e.2 ≤ links.length + 1) →
      links ⊆ U → links.Nodup →
      (∀ v ∈ links, (∃ dd, (v, dd) ∈ frontier) ∨ Sat g links v) →
      (links <+: bfs g c fuel frontier links ∧
       bfs g c fuel frontier links ⊆ U ∧
       (∀ e ∈ frontier, ∀ hs, g e.1 = some hs → ∀ x ∈ hs, x ∈ bfs g c fuel frontier links) ∧
       (∀ v ∈ bfs g c fuel frontier links, Sat g (bfs g c fuel frontier links) v)) := by
  intro fuel
  induction fuel with
  | zero => intro frontier links hfuel; exact absurd hfuel (by omega)
  | succ k ih =>
      intro frontier links hfuel hdep hsub hnd hinv
      match frontier with
      | [] =>
          refine ⟨by simp [bfs], by simpa [bfs] using hsub, by simp, ?_⟩
          intro v hv
          simp only [bfs] at hv ⊢
          rcases hinv v hv with ⟨dd, hdd⟩ | h
          · simp at hdd
          · exact h
      | (u, dd) :: rest =>
          have hlen := nodup_subset_length hnd hsub
          have hguard : ¬ crawlGuard c u dd :=
            not_crawlGuard_of_big hm ho
              (show dd ≤ U.length + 1 by
                have := hdep (u, dd) (by simp)
                simp only at this
                omega)
          match hg : g u with
          | none =>
              have heq : bfs g c (k + 1) ((u, dd) :: rest) links = bfs g c k rest links := by
                simp only [bfs]
                rw [if_neg hguard, hg]
              rw [heq]
              have hinv' : ∀ v ∈ links, (∃ dd', (v, dd') ∈ rest) ∨ Sat g links v := by
                intro v hv
                rcases hinv v hv with ⟨dd', hdd'⟩ | h
                · rcases List.mem_cons.mp hdd' with h' | h'
                  · obtain ⟨rfl, rfl⟩ := Prod.mk.injEq .. ▸ h'
                    refine Or.inr (fun hs hgs => ?_)
                    rw [hg] at hgs
                    exact absurd hgs (by simp)
                  · exact Or.inl ⟨dd', h'⟩
                · exact Or.inr h
              obtain ⟨h1, h2, h3, h4⟩ := ih rest links
                (by simp only [List.length_cons] at hfuel; omega)
                (fun e he => hdep e (by simp [he])) hsub hnd hinv'
              refine ⟨h1, h2, ?_, h4⟩
              intro e he hs hgs x hx
              rcases List.mem_cons.mp he with rfl | he'
              · rw [hg] at hgs
                exact absurd hgs (by simp)
              · exact h3 e he' hs hgs x hx
          | some hrefs =>
              have heq : bfs g c (k + 1) ((u, dd) :: rest) links =
                  bfs g c k (rest ++ (hrefs.foldl (bfsExpand dd) (links, [])).2)
                    (hrefs.foldl (bfsExpand dd) (links, [])).1 := by
                simp only [bfs]
                rw [if_neg hguard, hg]
              rw [heq]
              have hprefL := bfsExpand_prefix1 dd hrefs links []
              have hsubL : (hrefs.foldl (bfsExpand dd) (links, [])).1 ⊆ U := by
                intro x hx
                rcases bfsExpand_from dd hrefs links [] x hx with h | h
                · exact hsub h
                · exact hU u hrefs hg x h
              have hndL := bfsExpand_nodup dd hrefs links [] hnd
              have hlenL := nodup_subset_length hndL hsubL
              have hlenEq := bfsExpand_length dd hrefs links []
              simp only [List.length_nil] at hlenEq
              obtain ⟨h1, h2, h3, h4⟩ := ih
                (rest ++ (hrefs.foldl (bfsExpand dd) (links, [])).2)
                (hrefs.foldl (bfsExpand dd) (links, [])).1
                (by
                  simp only [List.length_append, List.length_cons] at hfuel ⊢
                  omega)
                (by
                  intro e he
                  rcases List.mem_append.mp he with he' | he'
                  · have := hdep e (by simp [he'])
                    have := hprefL.length_le
                    omega
                  · rcases bfsExpand_entries dd hrefs links [] e he' with h | h
                    · simp at h
                    · have hN : 0 < (hrefs.foldl (bfsExpand dd) (links, [])).2.length :=
                        List.length_pos.mpr (List.ne_nil_of_mem he')
                      have hdd := hdep (u, dd) (by simp)
                      simp only at hdd
                      omega)
                hsubL hndL
                (by
                  intro v hv
                  by_cases hvl : v ∈ links
                  · rcases hinv v hvl with ⟨dd', hdd'⟩ | h
                    · rcases List.mem_cons.mp hdd' with h' | h'
                      · have hvu : v = u := congrArg Prod.fst h'
                        subst hvu
                        refine Or.inr (fun hs hgs x hx => ?_)
                        rw [hg] at hgs
                        obtain rfl : hrefs = hs := by simpa using hgs
                        exact bfsExpand_covers dd hrefs links [] x hx
                      · exact Or.inl ⟨dd', List.mem_append_left _ h'⟩
                    · exact Or.inr (Sat_mono hprefL.subset h)
                  · rcases bfsExpand_pending dd hrefs links [] v hv with h | h
                    · exact absurd h hvl
                    · exact Or.inl ⟨dd + 1, List.mem_append_right _ h⟩)
              refine ⟨hprefL.trans h1, h2, ?_, h4⟩
              intro e he hs hgs x hx
              rcases List.mem_cons.mp he with rfl | he'
              · rw [hg] at hgs
                obtain rfl : hrefs = hs := by simpa using hgs
                exact h1.subset (bfsExpand_covers dd hrefs links [] x hx)
              · exact h3 e (List.mem_append_left _ he') hs hgs x hx

/-- With ceilings that never prune, the breadth-first engine also
computes exactly the discoverable closure of the seed. -/
theorem bfs_eq_discovered (g : Graph) (c : WebCrawler) (U : List String)
    (hU : ∀ v hs, g v = some hs → ∀ x ∈ hs, x ∈ U)
    (hm : U.length + 1 ≤ c.max_depth) (ho : U.length + 1 ≤ c.outside_depth) :
    ∀ v, v ∈ bfsRun g c (U.length + 2) ↔ Discovered g c.url v := by
  obtain ⟨-, -, hroot, hall⟩ := bfsSat g c U hU hm ho (U.length + 2) [(c.url, 1)] []
    (by simp; omega) (by simp) (by simp) (by simp) (by simp)
  intro v
  constructor
  · intro hv
    exact bfs_sound g c c.url (U.length + 2) [(c.url, 1)] [] (by simp) (by simp) v hv
  · intro hv
    induction hv with
    | seed_step hs u hg hu => exact hroot (c.url, 1) (by simp) hs hg u hu
    | step w hs u hw hg hu ihw => exact hall w ihw hs hg u hu

/-- A fetch oracle built from a finite page list only returns hrefs drawn
from the pages' link lists. -/
theorem graphOf_closed (l : List (String × List String)) (U : List String)
    (h : ∀ p ∈ l, ∀ x ∈ p.2, x ∈ U) :
    ∀ v hs, graphOf l v = some hs → ∀ x ∈ hs, x ∈ U := by
  intro v hs hv x hx
  unfold graphOf at hv
  cases hfind : l.find? (fun p => p.1 == v) with
  | none => rw [hfind] at hv; exact absurd hv (by simp)
  | some p =>
      rw [hfind] at hv
      have hp2 : p.2 = hs := by simpa using hv
      exact h p (List.mem_of_find?_eq_some hfind) x (hp2 ▸ hx)

/-- C6 counterexample: over the same fetch results and configuration the
depth-first engine and the breadth-first frontier order produce different
final visited sets: the URL uc is first reached by the depth-first order
at depth 3, beyond max_depth 2, so its page is never expanded and ud is
missed, while the breadth-first order reaches uc at depth 2 and collects
ud. -/
theorem c6_dfs_bfs_differ :
    (start_crawling (graphOf [("u", ["ua", "uc"]), ("ua", ["uc"]), ("uc", ["ud"])])
        (mkWebCrawler "u" 2 1)).links = ["ua", "uc"] ∧
    bfsRun (graphOf [("u", ["ua", "uc"]), ("ua", ["uc"]), ("uc", ["ud"])])
        (mkWebCrawler "u" 2 1) 10 = ["ua", "uc", "ud"] ∧
    "ud" ∈ bfsRun (graphOf [("u", ["ua", "uc"]), ("ua", ["uc"]), ("uc", ["ud"])])
        (mkWebCrawler "u" 2 1) 10 ∧
    "ud" ∉ (start_crawling (graphOf [("u", ["ua", "uc"]), ("ua", ["uc"]), ("uc", ["ud"])])
        (mkWebCrawler "u" 2 1)).links := by
  decide

/-- C6 (amended): the final visited set is not order-independent in
general, because the depth at which a URL is first discovered depends on
the processing order and the depth ceilings prune by it; when the
ceilings are too large to prune (at least the number of candidate URLs
plus one), order-independence holds: the depth-first engine and the
breadth-first engine both return exactly the discoverable closure of the
seed, hence the same set. -/
theorem c6_no_pruning_order_independent (g : Graph) (c : WebCrawler) (U : List String)
    (hU : ∀ v hs, g v = some hs → ∀ x ∈ hs, x ∈ U)
    (hm : U.length + 1 ≤ c.max_depth) (ho : U.length + 1 ≤ c.outside_depth) :
    ∀ v, (v ∈ (start_crawling g c).links ↔ Discovered g c.url v) ∧
         (v ∈ bfsRun g c (U.length + 2) ↔ Discovered g c.url v) ∧
         (v ∈ (start_crawling g c).links ↔ v ∈ bfsRun g c (U.length + 2)) := by
  intro v
  have hdfs := dfs_eq_discovered g c U hU hm ho v
  have hbfs := bfs_eq_discovered g c U hU hm ho v
  exact ⟨hdfs, hbfs, hdfs.trans hbfs.symm⟩

/-- C6 witness: the order-independence theorem applied to the
counterexample's graph once the ceilings are raised beyond pruning:
both engines then agree on the previously missed URL ud. -/
theorem c6_no_pruning_order_independent_witness :
    (∀ p ∈ [("u", ["ua", "uc"]), ("ua", ["uc"]), ("uc", ["ud"])],
       ∀ x ∈ p.2, x ∈ ["ua", "uc", "ud"]) ∧
    (["ua", "uc", "ud"].length + 1 ≤ (mkWebCrawler "u" 4 4).max_depth) ∧
    (["ua", "uc", "ud"].length + 1 ≤ (mkWebCrawler "u" 4 4).outside_depth) ∧
    ("ud" ∈ (start_crawling (graphOf [("u", ["ua", "uc"]), ("ua", ["uc"]), ("uc", ["ud"])])
        (mkWebCrawler "u" 4 4)).links ↔
     "ud" ∈ bfsRun (graphOf [("u", ["ua", "uc"]), ("ua", ["uc"]), ("uc", ["ud"])])
        (mkWebCrawler "u" 4 4) (["ua", "uc", "ud"].length + 2)) :=
  ⟨by decide, by decide, by decide,
   ((c6_no_pruning_order_independent
      (graphOf [("u", ["ua", "uc"]), ("ua", ["uc"]), ("uc", ["ud"])])
      (mkWebCrawler "u" 4 4) ["ua", "uc", "ud"]
      (graphOf_closed _ _ (by decide)) (by decide) (by decide)) "ud").2.2⟩
